import Mathlib

/-!
Verification of the sparse-matrix program (src/index.py).

The program is a Python class `SparseMatrix` whose state is
  * `self.rows`, `self.cols` : Python ints, and
  * `self.elements` : an insertion-ordered dict mapping the string
    key `f"{row},{col}"` to an int value.

The shallow embedding below models Python data as follows.

  * Python ints are `Int`.
  * The dict `self.elements` is an insertion-ordered association list
    `List ((Int × Int) × Int)`.  A Python dict iterates in insertion
    order and an update of an existing key keeps the key's position,
    which is exactly `dictSet` below.  The string key `f"{row},{col}"`
    is in bijection with the pair of ints (both directions are used
    only on canonically formatted keys produced by `set_element`), so
    keys are modelled as `Int × Int`.
  * Python strings are Lean `String` / `List Char`.  The helpers
    `stripWhile`, `splitOnChar`, `pyReadLines`, `pyInt` model
    `str.strip`, `str.split` (single-character separator),
    `file.readlines` (every consumer of a line strips it, so the
    retained newline of `readlines` is dropped here), and `int(...)`
    (optional sign followed by decimal digits; CPython additionally
    accepts underscore separators and non-ASCII digits, which no
    claim exercises and which are not modelled).
  * A raised Python exception is `Except.error` of a `PyErr`:
    `ValueError` carries its message (CPython quotes the offending
    literal in `int()`'s message; the quotes are omitted here),
    `IndexError` is the error raised by `list[1]` on a too-short list.
  * File I/O (`open`, `FileNotFoundError`, `save_to_file`) is not
    modelled; `from_text`/`from_lines` are `from_file` applied to the
    already-read text, and `to_string` is the serialization itself.
-/

/-- Python `str.strip()` whitespace (the ASCII part, which is all the
program ever produces). -/
def isPySpace (c : Char) : Bool :=
  c = ' ' || c = '\t' || c = '\n' || c = '\r' || c = '\x0b' || c = '\x0c'

/-- The characters stripped by Python `line.strip("()")` in `from_file`. -/
def isParenChar (c : Char) : Bool :=
  c = '(' || c = ')'

/-- Python `str.strip(chars)`: drop characters satisfying `p` from both
ends of the list. -/
def stripWhile (p : Char → Bool) (l : List Char) : List Char :=
  ((l.dropWhile p).reverse.dropWhile p).reverse

/-- Python `str.split(sep)` for a one-character separator `c`: split at
every occurrence, keeping empty pieces (`"a,,b".split(",") = ["a","","b"]`,
`"".split(",") = [""]`). -/
def splitOnChar (c : Char) : List Char → List (List Char)
  | [] => [[]]
  | x :: xs =>
    if x = c then [] :: splitOnChar c xs
    else
      match splitOnChar c xs with
      | [] => [[x]]
      | y :: ys => (x :: y) :: ys

/-- Python `file.readlines()` on the file contents, with each line's
trailing newline removed (every consumer in `from_file` strips the
line before using it, so dropping the newline here is equivalent):
a final newline does not produce an extra empty line, and empty
contents produce no lines. -/
def pyReadLines (l : List Char) : List (List Char) :=
  if (splitOnChar '\n' l).getLast? = some [] then (splitOnChar '\n' l).dropLast
  else splitOnChar '\n' l

/-- Join lines with single newline separators (no trailing newline). -/
def joinLines : List (List Char) → List Char
  | [] => []
  | [l] => l
  | l :: l' :: rest => l ++ '\n' :: joinLines (l' :: rest)

/-- The decimal digit character for `d < 10`, as produced by Python
`str` on ints. -/
def digitChar (d : Nat) : Char :=
  Char.ofNat (48 + d)

/-- Decimal digit test, as accepted by Python `int(...)`. -/
def isDigitChar (c : Char) : Bool :=
  '0' ≤ c && c ≤ '9'

/-- Accumulating decimal parse of a digit string; `none` on the first
non-digit character. -/
def digitsAux (acc : Nat) : List Char → Option Nat
  | [] => some acc
  | c :: rest => if isDigitChar c then digitsAux (acc * 10 + (c.toNat - 48)) rest else none

/-- Parse a nonempty all-digit string; `none` otherwise. -/
def digitsToNat (l : List Char) : Option Nat :=
  match l with
  | [] => none
  | _ :: _ => digitsAux 0 l

/-- Decimal digits of `n`, most significant first (`fuel`-structured
recursion; callers pass `fuel > n`). -/
def natReprAux : Nat → Nat → List Char
  | 0, _ => []
  | fuel + 1, n =>
    if n < 10 then [digitChar n]
    else natReprAux fuel (n / 10) ++ [digitChar (n % 10)]

/-- Decimal digits of `n`, most significant first; Python `str` on a
non-negative int. -/
def natRepr (n : Nat) : List Char :=
  natReprAux (n + 1) n

/-- Python `str` on an int: optional minus sign followed by decimal
digits. -/
def intRepr (i : Int) : List Char :=
  if i < 0 then '-' :: natRepr (-i).toNat else natRepr i.toNat

/-- The sign-and-digits core of Python `int(...)` after whitespace
stripping: one optional `+`/`-` sign followed by a nonempty digit
string. -/
def pyIntCore (t : List Char) : Option Int :=
  match t with
  | [] => none
  | c :: rest =>
    if c = '-' then (digitsToNat rest).map (fun n => -(n : Int))
    else if c = '+' then (digitsToNat rest).map (fun n => (n : Int))
    else (digitsToNat (c :: rest)).map (fun n => (n : Int))

/-- A raised Python exception, as far as the program distinguishes
them: `ValueError` with its message, or the `IndexError` raised by
indexing a too-short list (`line.split('=')[1]` with no `=`). -/
inductive PyErr where
  | valueError (msg : String)
  | indexError
deriving DecidableEq, Repr

/-- Python `int(s)`: strip whitespace, then sign and digits; a failure
is `ValueError("invalid literal for int() ...")` carrying the original
string. -/
def pyInt (l : List Char) : Except PyErr Int :=
  match pyIntCore (stripWhile isPySpace l) with
  | some i => .ok i
  | none => .error (.valueError ("invalid literal for int with base 10: " ++ String.mk l))

/-- First-occurrence lookup in an association list; Python
`dict.get(key)` (on a dict, which never holds duplicate keys, any
occurrence is the first). -/
def dictGet (l : List ((Int × Int) × Int)) (k : Int × Int) : Option Int :=
  match l with
  | [] => none
  | (k', v) :: rest => if k' = k then some v else dictGet rest k

/-- Python dict update `d[k] = v`: an existing key keeps its position
and gets the new value; a new key is appended at the end (insertion
order). -/
def dictSet (l : List ((Int × Int) × Int)) (k : Int × Int) (v : Int) :
    List ((Int × Int) × Int) :=
  match l with
  | [] => [(k, v)]
  | (k', v') :: rest => if k' = k then (k', v) :: rest else (k', v') :: dictSet rest k v

/-- The state of a `SparseMatrix` object: `self.rows`, `self.cols`,
`self.elements` (src/index.py lines 6-15). -/
structure SparseMatrix where
  rows : Int
  cols : Int
  elements : List ((Int × Int) × Int)
deriving DecidableEq, Repr

/-- Constructor `SparseMatrix(num_rows, num_cols)` — `__init__`, src/index.py
lines 6-15: empty element store. -/
def SparseMatrix.new (num_rows num_cols : Int) : SparseMatrix :=
  { rows := num_rows, cols := num_cols, elements := [] }

/-- Value of the element store at a coordinate, defaulting to 0. -/
def getAt (l : List ((Int × Int) × Int)) (row col : Int) : Int :=
  (dictGet l (row, col)).getD 0

/-- Method `get_element`, src/index.py lines 55-64: `self.elements.get(key, 0)`.
Total — it never raises. -/
def SparseMatrix.get_element (m : SparseMatrix) (row col : Int) : Int :=
  getAt m.elements row col

/-- Method `set_element`, src/index.py lines 66-80: grow `rows`/`cols` when the
coordinate is out of range, then store the value under the key. -/
def SparseMatrix.set_element (m : SparseMatrix) (row col value : Int) : SparseMatrix :=
  { rows := if m.rows ≤ row then row + 1 else m.rows
    cols := if m.cols ≤ col then col + 1 else m.cols
    elements := dictSet m.elements (row, col) value }

/-- The first loop of `add`/`subtract` (src/index.py lines 95-97,
120-122): copy every element of `self` into the result. -/
def copyInto (m : SparseMatrix) (l : List ((Int × Int) × Int)) : SparseMatrix :=
  l.foldl (fun acc kv => acc.set_element kv.1.1 kv.1.2 kv.2) m

/-- The second loop of `add` (src/index.py lines 100-103): for each
element of `other`, add its value to the current value in the result. -/
def accumInto (m : SparseMatrix) (l : List ((Int × Int) × Int)) : SparseMatrix :=
  l.foldl (fun acc kv =>
    acc.set_element kv.1.1 kv.1.2 (acc.get_element kv.1.1 kv.1.2 + kv.2)) m

/-- The second loop of `subtract` (src/index.py lines 125-128). -/
def subInto (m : SparseMatrix) (l : List ((Int × Int) × Int)) : SparseMatrix :=
  l.foldl (fun acc kv =>
    acc.set_element kv.1.1 kv.1.2 (acc.get_element kv.1.1 kv.1.2 - kv.2)) m

/-- Method `add`, src/index.py lines 82-105. -/
def SparseMatrix.add (m other : SparseMatrix) : Except PyErr SparseMatrix :=
  if m.rows ≠ other.rows ∨ m.cols ≠ other.cols then
    .error (.valueError "Matrix dimensions do not match for addition.")
  else
    .ok (accumInto
      (copyInto (SparseMatrix.new (max m.rows other.rows) (max m.cols other.cols)) m.elements)
      other.elements)

/-- Method `subtract`, src/index.py lines 107-130. -/
def SparseMatrix.subtract (m other : SparseMatrix) : Except PyErr SparseMatrix :=
  if m.rows ≠ other.rows ∨ m.cols ≠ other.cols then
    .error (.valueError "Matrix dimensions do not match for subtraction.")
  else
    .ok (subInto
      (copyInto (SparseMatrix.new (max m.rows other.rows) (max m.cols other.cols)) m.elements)
      other.elements)

/-- The nested loops of `multiply` (src/index.py lines 145-153): for
every element of `self` and every element of `other` with matching
inner index, accumulate the product into the result. -/
def mulAccum (a b : List ((Int × Int) × Int)) (init : SparseMatrix) : SparseMatrix :=
  a.foldl (fun acc kv1 =>
    b.foldl (fun acc2 kv2 =>
      if kv1.1.2 = kv2.1.1 then
        acc2.set_element kv1.1.1 kv2.1.2
          (acc2.get_element kv1.1.1 kv2.1.2 + kv1.2 * kv2.2)
      else acc2) acc) init

/-- Method `multiply`, src/index.py lines 132-155. -/
def SparseMatrix.multiply (m other : SparseMatrix) : Except PyErr SparseMatrix :=
  if m.cols ≠ other.rows then
    .error (.valueError "Invalid dimensions for multiplication.")
  else
    .ok (mulAccum m.elements other.elements (SparseMatrix.new m.rows other.cols))

/-- One serialized element line `f"({row}, {col}, {value})"`
(src/index.py line 166; `row`/`col` are the pieces of the canonical key
string, i.e. the decimal forms of the coordinates). -/
def elementLine (kv : (Int × Int) × Int) : List Char :=
  '(' :: (intRepr kv.1.1 ++ ", ".data ++ intRepr kv.1.2 ++ ", ".data ++ intRepr kv.2 ++ [')'])

/-- Method `to_string`, src/index.py lines 157-167: the two header lines, one
line per stored element (in dict order), each followed by a newline,
then `str.strip()` of the whole result. -/
def SparseMatrix.to_string (m : SparseMatrix) : String :=
  String.mk (stripWhile isPySpace
    (m.elements.foldl (fun acc kv => acc ++ elementLine kv ++ ['\n'])
      ("rows=".data ++ intRepr m.rows ++ '\n' :: ("cols=".data ++ intRepr m.cols ++ ['\n']))))

/-- Header parsing `int(line.strip().split('=')[1])` — src/index.py lines 33-34.
Indexing `[1]` on the split raises `IndexError` when the line has no
`=`; a non-integer segment raises `int`'s `ValueError`. -/
def parseHeaderVal (l : List Char) : Except PyErr Int :=
  match (splitOnChar '=' (stripWhile isPySpace l)).get? 1 with
  | none => .error .indexError
  | some seg => pyInt seg

/-- Element parsing `row, col, value = map(int, line.strip("()").split(","))` with its
`except ValueError` handler — src/index.py lines 44-47.  A wrong field
count (unpacking error) or a non-integer field both surface as the
handler's `ValueError` carrying the stripped line. -/
def parseTriple (t : List Char) : Except PyErr (Int × Int × Int) :=
  match splitOnChar ',' (stripWhile isParenChar t) with
  | [f1, f2, f3] =>
    match pyInt f1, pyInt f2, pyInt f3 with
    | .ok a, .ok b, .ok c => .ok (a, b, c)
    | _, _, _ => .error (.valueError ("Invalid format in line: " ++ String.mk t))
  | _ => .error (.valueError ("Invalid format in line: " ++ String.mk t))

/-- The element loop of `from_file` — src/index.py lines 39-49: strip
each line, skip blank lines, parse a triple, `set_element` it; a parse
error aborts the loop and propagates. -/
def processLines (m : SparseMatrix) : List (List Char) → Except PyErr SparseMatrix
  | [] => .ok m
  | line :: rest =>
    if stripWhile isPySpace line = [] then processLines m rest
    else
      match parseTriple (stripWhile isPySpace line) with
      | .error e => .error e
      | .ok (row, col, value) => processLines (m.set_element row col value) rest

/-- Body of `from_file` after `readlines` — src/index.py lines 29-51: require
two lines, parse the two header values, then process the element
lines.  (The `ValueError` message in the code also names the file
path, which the text-level model does not have.) -/
def from_lines (lines : List (List Char)) : Except PyErr SparseMatrix :=
  match lines with
  | l0 :: l1 :: body =>
    match parseHeaderVal l0 with
    | .error e => .error e
    | .ok r =>
      match parseHeaderVal l1 with
      | .error e => .error e
      | .ok c => processLines (SparseMatrix.new r c) body
  | _ => .error (.valueError "File does not contain enough lines for matrix dimensions.")

/-- Behavior of `from_file` on the contents of the file (the `open`/`readlines`
I/O and its `FileNotFoundError` are outside the model). -/
def from_text (s : String) : Except PyErr SparseMatrix :=
  from_lines (pyReadLines s.data)

/-- A matrix built by a sequence of `set_element` calls on a fresh
`SparseMatrix(r, c)` — the only way the program ever populates a
matrix. -/
def buildMatrix (r c : Int) (ops : List (Int × Int × Int)) : SparseMatrix :=
  ops.foldl (fun m t => m.set_element t.1 t.2.1 t.2.2) (SparseMatrix.new r c)

/-- Sum of the values carried by entries of `l` at key `k` (an
arbitrary list may repeat keys). -/
def sumAt (l : List ((Int × Int) × Int)) (k : Int × Int) : Int :=
  (l.map fun kv => if kv.1 = k then kv.2 else 0).sum

/-- Invariant of every matrix the program builds through its own API:
the dict has no duplicate keys (a dict cannot), and every stored
coordinate is non-negative and within the declared dimensions
(`set_element` grows the dimensions past every non-negative stored
coordinate). -/
def SparseMatrix.wf (m : SparseMatrix) : Prop :=
  (m.elements.map Prod.fst).Nodup ∧
    ∀ kv ∈ m.elements, 0 ≤ kv.1.1 ∧ kv.1.1 < m.rows ∧ 0 ≤ kv.1.2 ∧ kv.1.2 < m.cols

instance (m : SparseMatrix) : Decidable m.wf := by
  unfold SparseMatrix.wf; infer_instance

/-- The serialized text of a matrix, as a list of lines: the two
headers followed by one line per stored element, in store order. -/
def linesOf (m : SparseMatrix) : List (List Char) :=
  ("rows=".data ++ intRepr m.rows) :: ("cols=".data ++ intRepr m.cols)
    :: m.elements.map elementLine

/-!
Heap model for the frame claims.  Python objects live on a heap and
methods mutate them in place; non-mutation of the operands is not
expressible about the pure functions above, so the three arithmetic
methods are restated as programs over an explicit heap of
`SparseMatrix` objects.  A reference is an index into the heap;
`result_matrix = SparseMatrix(...)` allocates a fresh cell at the end,
and each `result_matrix.set_element(...)` call is a write to that
cell.  The loops below are those of src/index.py with every attribute
read and method call routed through the heap.
-/

/-- The Python object heap: one cell per live `SparseMatrix`. -/
abbrev Heap := List SparseMatrix

/-- A reference to a heap cell. -/
abbrev Ref := Nat

/-- Dereference. -/
def readRef (h : Heap) (r : Ref) : Option SparseMatrix :=
  List.get? (α := SparseMatrix) h r

/-- Overwrite one heap cell. -/
def writeRef (h : Heap) (r : Ref) (m : SparseMatrix) : Heap :=
  List.set (α := SparseMatrix) h r m

/-- Call `obj.set_element(row, col, value)` as a heap write at `obj`. -/
def set_elementH (h : Heap) (ρ : Ref) (row col value : Int) : Heap :=
  match readRef h ρ with
  | some m => writeRef h ρ (m.set_element row col value)
  | none => h

/-- Call `obj.get_element(row, col)` as a heap operation: it reads the dict
(`dict.get` does not insert) and returns the heap as the method left
it. -/
def get_elementH (h : Heap) (ρ : Ref) (row col : Int) : Option (Int × Heap) :=
  (readRef h ρ).map fun m => (m.get_element row col, h)

/-- Method `add` (src/index.py lines 82-105) against the heap: read both
operands, check dimensions, allocate the result object, then run the
two loops as heap reads/writes on the result reference. -/
def addH (h : Heap) (a b : Ref) : Except PyErr (Heap × Ref) :=
  match readRef h a, readRef h b with
  | some A, some B =>
    if A.rows ≠ B.rows ∨ A.cols ≠ B.cols then
      .error (.valueError "Matrix dimensions do not match for addition.")
    else
      let ρ : Ref := h.length
      let h1 : Heap := h ++ [SparseMatrix.new (max A.rows B.rows) (max A.cols B.cols)]
      let h2 := A.elements.foldl (fun hh kv => set_elementH hh ρ kv.1.1 kv.1.2 kv.2) h1
      let h3 := B.elements.foldl (fun hh kv =>
        match get_elementH hh ρ kv.1.1 kv.1.2 with
        | some (cur, hh') => set_elementH hh' ρ kv.1.1 kv.1.2 (cur + kv.2)
        | none => hh) h2
      .ok (h3, ρ)
  | _, _ => .error .indexError

/-- Method `subtract` (src/index.py lines 107-130) against the heap. -/
def subtractH (h : Heap) (a b : Ref) : Except PyErr (Heap × Ref) :=
  match readRef h a, readRef h b with
  | some A, some B =>
    if A.rows ≠ B.rows ∨ A.cols ≠ B.cols then
      .error (.valueError "Matrix dimensions do not match for subtraction.")
    else
      let ρ : Ref := h.length
      let h1 : Heap := h ++ [SparseMatrix.new (max A.rows B.rows) (max A.cols B.cols)]
      let h2 := A.elements.foldl (fun hh kv => set_elementH hh ρ kv.1.1 kv.1.2 kv.2) h1
      let h3 := B.elements.foldl (fun hh kv =>
        match get_elementH hh ρ kv.1.1 kv.1.2 with
        | some (cur, hh') => set_elementH hh' ρ kv.1.1 kv.1.2 (cur - kv.2)
        | none => hh) h2
      .ok (h3, ρ)
  | _, _ => .error .indexError

/-- Method `multiply` (src/index.py lines 132-155) against the heap. -/
def multiplyH (h : Heap) (a b : Ref) : Except PyErr (Heap × Ref) :=
  match readRef h a, readRef h b with
  | some A, some B =>
    if A.cols ≠ B.rows then
      .error (.valueError "Invalid dimensions for multiplication.")
    else
      let ρ : Ref := h.length
      let h1 : Heap := h ++ [SparseMatrix.new A.rows B.cols]
      let h2 := A.elements.foldl (fun hh kv1 =>
        B.elements.foldl (fun hh2 kv2 =>
          if kv1.1.2 = kv2.1.1 then
            match get_elementH hh2 ρ kv1.1.1 kv2.1.2 with
            | some (cur, hh') => set_elementH hh' ρ kv1.1.1 kv2.1.2 (cur + kv1.2 * kv2.2)
            | none => hh2
          else hh2) hh) h1
      .ok (h2, ρ)
  | _, _ => .error .indexError

/-- The contribution produced by one pair of stored elements in the
nested `multiply` loop: a product accumulated at `(row1, col2)` when
`col1 == row2`. -/
def mulContrib (kv1 kv2 : (Int × Int) × Int) : Option ((Int × Int) × Int) :=
  if kv1.1.2 = kv2.1.1 then some ((kv1.1.1, kv2.1.2), kv1.2 * kv2.2) else none

/-- All contributions of the nested `multiply` loop, in loop order. -/
def mulContribs (a b : List ((Int × Int) × Int)) : List ((Int × Int) × Int) :=
  a.flatMap fun kv1 => b.filterMap (mulContrib kv1)

/-- The element-lines block of `to_string`, each line followed by its
newline. -/
def seriBody : List ((Int × Int) × Int) → List Char
  | [] => []
  | kv :: rest => elementLine kv ++ '\n' :: seriBody rest

/-! ### Association-list (Python dict) lemmas -/

theorem dictGet_dictSet_self (l : List ((Int × Int) × Int)) (k : Int × Int) (v : Int) :
    dictGet (dictSet l k v) k = some v := by
  induction l with
  | nil => simp [dictGet, dictSet]
  | cons kv rest ih =>
    by_cases h : kv.1 = k
    · simp [dictSet, dictGet, h]
    · simp [dictSet, dictGet, h, ih]

theorem dictGet_dictSet_ne (l : List ((Int × Int) × Int)) (k k' : Int × Int) (v : Int)
    (h : k' ≠ k) : dictGet (dictSet l k v) k' = dictGet l k' := by
  induction l with
  | nil => simp [dictGet, dictSet, Ne.symm h]
  | cons kv rest ih =>
    obtain ⟨k0, v0⟩ := kv
    by_cases hk : k0 = k
    · subst hk
      simp [dictSet, dictGet, Ne.symm h]
    · by_cases hk' : k0 = k'
      · simp [dictSet, dictGet, hk', h]
      · simp [dictSet, dictGet, hk, hk', ih]

theorem dictGet_eq_none (l : List ((Int × Int) × Int)) (k : Int × Int)
    (h : k ∉ l.map Prod.fst) : dictGet l k = none := by
  induction l with
  | nil => rfl
  | cons kv rest ih =>
    simp only [List.map_cons, List.mem_cons, not_or] at h
    have hne : kv.1 ≠ k := fun hh => h.1 hh.symm
    simp [dictGet, hne, ih h.2]

theorem keys_dictSet (l : List ((Int × Int) × Int)) (k : Int × Int) (v : Int) :
    (dictSet l k v).map Prod.fst =
      if k ∈ l.map Prod.fst then l.map Prod.fst else l.map Prod.fst ++ [k] := by
  induction l with
  | nil => simp [dictSet]
  | cons kv rest ih =>
    obtain ⟨k0, v0⟩ := kv
    by_cases h : k0 = k
    · subst h
      simp [dictSet]
    · simp only [dictSet, if_neg h, List.map_cons, ih]
      by_cases hm : k ∈ rest.map Prod.fst
      · simp [hm, Ne.symm h]
      · simp [hm, Ne.symm h]

theorem dictSet_of_not_mem (l : List ((Int × Int) × Int)) (k : Int × Int) (v : Int)
    (h : k ∉ l.map Prod.fst) : dictSet l k v = l ++ [(k, v)] := by
  induction l with
  | nil => rfl
  | cons kv rest ih =>
    simp only [List.map_cons, List.mem_cons, not_or] at h
    have hne : kv.1 ≠ k := fun hh => h.1 hh.symm
    simp [dictSet, hne, ih h.2]

theorem nodup_keys_dictSet (l : List ((Int × Int) × Int)) (k : Int × Int) (v : Int)
    (h : (l.map Prod.fst).Nodup) : ((dictSet l k v).map Prod.fst).Nodup := by
  rw [keys_dictSet]
  by_cases hm : k ∈ l.map Prod.fst
  · simpa [hm] using h
  · simp only [hm, if_false]
    exact List.Nodup.append h (List.nodup_singleton k) (by simpa using hm)

/-! ### `get_element` / `set_element` lemmas -/

theorem get_new (R C r c : Int) : (SparseMatrix.new R C).get_element r c = 0 := rfl

theorem get_set_self (m : SparseMatrix) (r c v : Int) :
    (m.set_element r c v).get_element r c = v := by
  simp [SparseMatrix.get_element, SparseMatrix.set_element, getAt, dictGet_dictSet_self]

theorem get_set_ne (m : SparseMatrix) (r c v r' c' : Int) (h : (r', c') ≠ (r, c)) :
    (m.set_element r c v).get_element r' c' = m.get_element r' c' := by
  simp [SparseMatrix.get_element, SparseMatrix.set_element, getAt,
    dictGet_dictSet_ne _ _ _ _ h]

theorem rows_set (m : SparseMatrix) (r c v : Int) :
    (m.set_element r c v).rows = if m.rows ≤ r then r + 1 else m.rows := rfl

theorem cols_set (m : SparseMatrix) (r c v : Int) :
    (m.set_element r c v).cols = if m.cols ≤ c then c + 1 else m.cols := rfl

/-! ### Loop lemmas for `add`, `subtract`, `multiply` -/

theorem copyInto_nil (m : SparseMatrix) : copyInto m [] = m := rfl

theorem copyInto_cons (m : SparseMatrix) (kv : (Int × Int) × Int)
    (l : List ((Int × Int) × Int)) :
    copyInto m (kv :: l) = copyInto (m.set_element kv.1.1 kv.1.2 kv.2) l := rfl

theorem accumInto_nil (m : SparseMatrix) : accumInto m [] = m := rfl

theorem accumInto_cons (m : SparseMatrix) (kv : (Int × Int) × Int)
    (l : List ((Int × Int) × Int)) :
    accumInto m (kv :: l) =
      accumInto (m.set_element kv.1.1 kv.1.2 (m.get_element kv.1.1 kv.1.2 + kv.2)) l := rfl

theorem subInto_nil (m : SparseMatrix) : subInto m [] = m := rfl

theorem subInto_cons (m : SparseMatrix) (kv : (Int × Int) × Int)
    (l : List ((Int × Int) × Int)) :
    subInto m (kv :: l) =
      subInto (m.set_element kv.1.1 kv.1.2 (m.get_element kv.1.1 kv.1.2 - kv.2)) l := rfl

theorem sumAt_nil (k : Int × Int) : sumAt [] k = 0 := rfl

theorem sumAt_cons (kv : (Int × Int) × Int) (l : List ((Int × Int) × Int)) (k : Int × Int) :
    sumAt (kv :: l) k = (if kv.1 = k then kv.2 else 0) + sumAt l k := by
  simp [sumAt]

theorem sumAt_eq_zero (l : List ((Int × Int) × Int)) (k : Int × Int)
    (h : k ∉ l.map Prod.fst) : sumAt l k = 0 := by
  induction l with
  | nil => rfl
  | cons kv rest ih =>
    simp only [List.map_cons, List.mem_cons, not_or] at h
    rw [sumAt_cons, if_neg (fun hh => h.1 hh.symm), ih h.2, add_zero]

theorem sumAt_eq_dictGet (l : List ((Int × Int) × Int)) (k : Int × Int)
    (h : (l.map Prod.fst).Nodup) : sumAt l k = (dictGet l k).getD 0 := by
  induction l with
  | nil => rfl
  | cons kv rest ih =>
    obtain ⟨h1, h2⟩ := by simpa using h
    rw [sumAt_cons]
    by_cases hk : kv.1 = k
    · subst hk
      rw [if_pos rfl, sumAt_eq_zero rest _ (by simpa using h1)]
      simp [dictGet]
    · simp [dictGet, hk, ih h2]

theorem get_copyInto (l : List ((Int × Int) × Int)) :
    ∀ (m : SparseMatrix) (r c : Int), (l.map Prod.fst).Nodup →
      (copyInto m l).get_element r c = (dictGet l (r, c)).getD (m.get_element r c) := by
  induction l with
  | nil => intro m r c _; simp [copyInto_nil, dictGet]
  | cons kv rest ih =>
    intro m r c hnd
    obtain ⟨h1, h2⟩ := by simpa using hnd
    rw [copyInto_cons, ih _ r c h2]
    by_cases hk : kv.1 = (r, c)
    · rw [dictGet_eq_none rest (r, c) (by simpa [hk] using h1)]
      obtain ⟨⟨kr, kc⟩, kvv⟩ := kv
      obtain ⟨hr, hc⟩ := Prod.mk.inj hk
      subst hr; subst hc
      simp [dictGet, get_set_self]
    · obtain ⟨⟨kr, kc⟩, kvv⟩ := kv
      rw [get_set_ne _ _ _ _ _ _ (fun hh => hk (by simpa using hh.symm))]
      simp only [dictGet, if_neg hk]

theorem get_accumInto (l : List ((Int × Int) × Int)) :
    ∀ (m : SparseMatrix) (r c : Int),
      (accumInto m l).get_element r c = m.get_element r c + sumAt l (r, c) := by
  induction l with
  | nil => intro m r c; simp [accumInto_nil, sumAt_nil]
  | cons kv rest ih =>
    intro m r c
    rw [accumInto_cons, ih, sumAt_cons]
    by_cases hk : kv.1 = (r, c)
    · obtain ⟨⟨kr, kc⟩, kvv⟩ := kv
      obtain ⟨hr, hc⟩ := Prod.mk.inj hk
      subst hr; subst hc
      rw [get_set_self, if_pos rfl]
      ring
    · obtain ⟨⟨kr, kc⟩, kvv⟩ := kv
      rw [get_set_ne _ _ _ _ _ _ (fun hh => hk (by simpa using hh.symm)), if_neg hk]
      ring

theorem get_subInto (l : List ((Int × Int) × Int)) :
    ∀ (m : SparseMatrix) (r c : Int),
      (subInto m l).get_element r c = m.get_element r c - sumAt l (r, c) := by
  induction l with
  | nil => intro m r c; simp [subInto_nil, sumAt_nil]
  | cons kv rest ih =>
    intro m r c
    rw [subInto_cons, ih, sumAt_cons]
    by_cases hk : kv.1 = (r, c)
    · obtain ⟨⟨kr, kc⟩, kvv⟩ := kv
      obtain ⟨hr, hc⟩ := Prod.mk.inj hk
      subst hr; subst hc
      rw [get_set_self, if_pos rfl]
      ring
    · obtain ⟨⟨kr, kc⟩, kvv⟩ := kv
      rw [get_set_ne _ _ _ _ _ _ (fun hh => hk (by simpa using hh.symm)), if_neg hk]
      ring

theorem get_buildMatrix_not_set (ops : List (Int × Int × Int)) :
    ∀ (m : SparseMatrix) (r c : Int),
      (r, c) ∉ ops.map (fun t => (t.1, t.2.1)) →
        (ops.foldl (fun m t => m.set_element t.1 t.2.1 t.2.2) m).get_element r c
          = m.get_element r c := by
  induction ops with
  | nil => intro m r c _; rfl
  | cons t rest ih =>
    intro m r c h
    simp only [List.map_cons, List.mem_cons, not_or] at h
    rw [List.foldl_cons, ih _ r c h.2, get_set_ne _ _ _ _ _ _ h.1]

/-- C1: for matrices with equal dimensions (and the dict invariant of
no duplicate keys, which every Python dict satisfies), `add` succeeds
and its result reads back the pointwise sum at every coordinate, and
`subtract` likewise reads back the pointwise difference. -/
theorem claim_c1 (A B : SparseMatrix)
    (hA : (A.elements.map Prod.fst).Nodup) (hB : (B.elements.map Prod.fst).Nodup)
    (hr : A.rows = B.rows) (hc : A.cols = B.cols) :
    ∃ S D, A.add B = .ok S ∧ A.subtract B = .ok D ∧
      (∀ r c, S.get_element r c = A.get_element r c + B.get_element r c) ∧
      (∀ r c, D.get_element r c = A.get_element r c - B.get_element r c) := by
  refine ⟨accumInto (copyInto (SparseMatrix.new (max A.rows B.rows) (max A.cols B.cols))
      A.elements) B.elements,
    subInto (copyInto (SparseMatrix.new (max A.rows B.rows) (max A.cols B.cols))
      A.elements) B.elements, ?_, ?_, ?_, ?_⟩
  · rw [SparseMatrix.add, if_neg (by simp [hr, hc])]
  · rw [SparseMatrix.subtract, if_neg (by simp [hr, hc])]
  · intro r c
    rw [get_accumInto, get_copyInto _ _ _ _ hA, sumAt_eq_dictGet _ _ hB, get_new]
    rfl
  · intro r c
    rw [get_subInto, get_copyInto _ _ _ _ hA, sumAt_eq_dictGet _ _ hB, get_new]
    rfl

theorem claim_c1_witness :
    (((SparseMatrix.new 2 2).set_element 0 0 1).elements.map Prod.fst).Nodup ∧
    ∃ S D,
      ((SparseMatrix.new 2 2).set_element 0 0 1).add
        ((SparseMatrix.new 2 2).set_element 1 1 2) = .ok S ∧
      ((SparseMatrix.new 2 2).set_element 0 0 1).subtract
        ((SparseMatrix.new 2 2).set_element 1 1 2) = .ok D ∧
      (∀ r c, S.get_element r c =
        ((SparseMatrix.new 2 2).set_element 0 0 1).get_element r c +
          ((SparseMatrix.new 2 2).set_element 1 1 2).get_element r c) ∧
      (∀ r c, D.get_element r c =
        ((SparseMatrix.new 2 2).set_element 0 0 1).get_element r c -
          ((SparseMatrix.new 2 2).set_element 1 1 2).get_element r c) :=
  ⟨by decide,
    claim_c1 ((SparseMatrix.new 2 2).set_element 0 0 1)
      ((SparseMatrix.new 2 2).set_element 1 1 2) (by decide) (by decide) rfl rfl⟩

/-- C3: a coordinate never touched by any `set_element` of the build
sequence reads 0 (`get_element` is total, so it cannot fail), and
after `set_element(r, c, v)` with non-negative `r`, `c` the same
coordinate reads `v`, both dimensions cover the coordinate
(`rows ≥ r+1`, `cols ≥ c+1`), and neither dimension ever shrinks. -/
theorem claim_c3 :
    (∀ (R C : Int) (ops : List (Int × Int × Int)) (r c : Int),
      (r, c) ∉ ops.map (fun t => (t.1, t.2.1)) →
        (buildMatrix R C ops).get_element r c = 0) ∧
    (∀ (m : SparseMatrix) (r c v : Int), 0 ≤ r → 0 ≤ c →
      (m.set_element r c v).get_element r c = v ∧
      r + 1 ≤ (m.set_element r c v).rows ∧ c + 1 ≤ (m.set_element r c v).cols ∧
      m.rows ≤ (m.set_element r c v).rows ∧ m.cols ≤ (m.set_element r c v).cols) := by
  constructor
  · intro R C ops r c h
    rw [buildMatrix, get_buildMatrix_not_set _ _ _ _ h, get_new]
  · intro m r c v _ _
    refine ⟨get_set_self m r c v, ?_, ?_, ?_, ?_⟩ <;>
      · simp only [rows_set, cols_set]
        split <;> omega

theorem claim_c3_witness :
    (buildMatrix 3 3 [(0, 1, 5)]).get_element 2 2 = 0 ∧
    ((SparseMatrix.new 2 2).set_element 5 1 7).get_element 5 1 = 7 ∧
    (5 : Int) + 1 ≤ ((SparseMatrix.new 2 2).set_element 5 1 7).rows :=
  ⟨claim_c3.1 3 3 [(0, 1, 5)] 2 2 (by decide),
    (claim_c3.2 (SparseMatrix.new 2 2) 5 1 7 (by decide) (by decide)).1,
    (claim_c3.2 (SparseMatrix.new 2 2) 5 1 7 (by decide) (by decide)).2.1⟩

/-- C6: `add` and `subtract` raise their dimension-mismatch
`ValueError` exactly when the operands differ in `rows` or in `cols`,
`multiply` raises its dimension-mismatch `ValueError` exactly when
`self.cols ≠ other.rows`, and on matching dimensions each operation
returns a result. -/
theorem claim_c6 (A B : SparseMatrix) :
    ((A.rows ≠ B.rows ∨ A.cols ≠ B.cols) ↔
      A.add B = .error (.valueError "Matrix dimensions do not match for addition.")) ∧
    ((A.rows ≠ B.rows ∨ A.cols ≠ B.cols) ↔
      A.subtract B = .error (.valueError "Matrix dimensions do not match for subtraction.")) ∧
    ((A.cols ≠ B.rows) ↔
      A.multiply B = .error (.valueError "Invalid dimensions for multiplication.")) ∧
    (A.rows = B.rows → A.cols = B.cols →
      (∃ S, A.add B = .ok S) ∧ (∃ D, A.subtract B = .ok D)) ∧
    (A.cols = B.rows → ∃ M, A.multiply B = .ok M) := by
  have hadd : ∀ hd : A.rows ≠ B.rows ∨ A.cols ≠ B.cols,
      A.add B = .error (.valueError "Matrix dimensions do not match for addition.") :=
    fun hd => by rw [SparseMatrix.add, if_pos hd]
  have hsub : ∀ hd : A.rows ≠ B.rows ∨ A.cols ≠ B.cols,
      A.subtract B = .error (.valueError "Matrix dimensions do not match for subtraction.") :=
    fun hd => by rw [SparseMatrix.subtract, if_pos hd]
  have hmul : ∀ hd : A.cols ≠ B.rows,
      A.multiply B = .error (.valueError "Invalid dimensions for multiplication.") :=
    fun hd => by rw [SparseMatrix.multiply, if_pos hd]
  refine ⟨⟨hadd, ?_⟩, ⟨hsub, ?_⟩, ⟨hmul, ?_⟩, ?_, ?_⟩
  · intro herr
    by_contra hd
    rw [SparseMatrix.add, if_neg hd] at herr
    exact Except.noConfusion herr
  · intro herr
    by_contra hd
    rw [SparseMatrix.subtract, if_neg hd] at herr
    exact Except.noConfusion herr
  · intro herr
    by_contra hd
    rw [SparseMatrix.multiply, if_neg (by simp [hd])] at herr
    exact Except.noConfusion herr
  · intro h1 h2
    exact ⟨⟨_, by rw [SparseMatrix.add, if_neg (by simp [h1, h2])]⟩,
      ⟨_, by rw [SparseMatrix.subtract, if_neg (by simp [h1, h2])]⟩⟩
  · intro h1
    exact ⟨_, by rw [SparseMatrix.multiply, if_neg (by simp [h1])]⟩

/-! ### Multiplication: the nested loop as accumulation of a
contribution list -/

theorem accumInto_append (m : SparseMatrix) (l1 l2 : List ((Int × Int) × Int)) :
    accumInto m (l1 ++ l2) = accumInto (accumInto m l1) l2 := by
  simp [accumInto, List.foldl_append]

theorem sumAt_append (l1 l2 : List ((Int × Int) × Int)) (k : Int × Int) :
    sumAt (l1 ++ l2) k = sumAt l1 k + sumAt l2 k := by
  simp [sumAt]

theorem mulAccum_inner (b : List ((Int × Int) × Int)) :
    ∀ (acc : SparseMatrix) (kv1 : (Int × Int) × Int),
      b.foldl (fun acc2 kv2 =>
        if kv1.1.2 = kv2.1.1 then
          acc2.set_element kv1.1.1 kv2.1.2
            (acc2.get_element kv1.1.1 kv2.1.2 + kv1.2 * kv2.2)
        else acc2) acc
      = accumInto acc (b.filterMap (mulContrib kv1)) := by
  induction b with
  | nil => intro acc kv1; rfl
  | cons kv2 rest ih =>
    intro acc kv1
    rw [List.foldl_cons, List.filterMap_cons]
    by_cases h : kv1.1.2 = kv2.1.1
    · rw [if_pos h]
      have : mulContrib kv1 kv2 = some ((kv1.1.1, kv2.1.2), kv1.2 * kv2.2) := by
        rw [mulContrib, if_pos h]
      rw [this, accumInto_cons, ih]
    · rw [if_neg h]
      have : mulContrib kv1 kv2 = none := by rw [mulContrib, if_neg h]
      rw [this, ih]

theorem mulContribs_nil (b : List ((Int × Int) × Int)) : mulContribs [] b = [] := rfl

theorem mulContribs_cons (kv1 : (Int × Int) × Int) (rest b : List ((Int × Int) × Int)) :
    mulContribs (kv1 :: rest) b = b.filterMap (mulContrib kv1) ++ mulContribs rest b := rfl

theorem mulAccum_eq (a : List ((Int × Int) × Int)) :
    ∀ (b : List ((Int × Int) × Int)) (init : SparseMatrix),
      mulAccum a b init = accumInto init (mulContribs a b) := by
  induction a with
  | nil => intro b init; rfl
  | cons kv1 rest ih =>
    intro b init
    rw [mulContribs_cons, accumInto_append, ← mulAccum_inner b init kv1, ← ih]
    rfl

theorem sumAt_mulContribs (a b : List ((Int × Int) × Int)) (k : Int × Int) :
    sumAt (mulContribs a b) k
      = (a.map fun kv1 => sumAt (b.filterMap (mulContrib kv1)) k).sum := by
  induction a with
  | nil => rfl
  | cons kv1 rest ih =>
    rw [mulContribs_cons, sumAt_append, List.map_cons, List.sum_cons, ih]

theorem sumAt_filterMap (kv1 : (Int × Int) × Int) (b : List ((Int × Int) × Int))
    (r c : Int) :
    sumAt (b.filterMap (mulContrib kv1)) (r, c)
      = if kv1.1.1 = r then kv1.2 * sumAt b (kv1.1.2, c) else 0 := by
  induction b with
  | nil =>
    rw [List.filterMap_nil, sumAt_nil, sumAt_nil]
    by_cases h : kv1.1.1 = r <;> simp [h]
  | cons kv2 rest ih =>
    rw [List.filterMap_cons]
    by_cases h : kv1.1.2 = kv2.1.1
    · have hc : mulContrib kv1 kv2 = some ((kv1.1.1, kv2.1.2), kv1.2 * kv2.2) := by
        rw [mulContrib, if_pos h]
      rw [hc, sumAt_cons, ih, sumAt_cons]
      by_cases hr : kv1.1.1 = r
      · by_cases hcc : kv2.1.2 = c
        · have h1 : ((kv1.1.1, kv2.1.2) : Int × Int) = (r, c) := by rw [hr, hcc]
          have h2 : (kv2.1 : Int × Int) = (kv1.1.2, c) := Prod.ext h.symm hcc
          rw [if_pos h1, if_pos h2, if_pos hr, if_pos hr]
          ring
        · have h1 : ((kv1.1.1, kv2.1.2) : Int × Int) ≠ (r, c) :=
            fun hh => hcc (congrArg Prod.snd hh)
          have h2 : (kv2.1 : Int × Int) ≠ (kv1.1.2, c) :=
            fun hh => hcc (congrArg Prod.snd hh)
          rw [if_neg h1, if_neg h2, if_pos hr, if_pos hr]
          ring
      · have h1 : ((kv1.1.1, kv2.1.2) : Int × Int) ≠ (r, c) :=
          fun hh => hr (congrArg Prod.fst hh)
        rw [if_neg h1, if_neg hr, if_neg hr]
        ring
    · have hc : mulContrib kv1 kv2 = none := by rw [mulContrib, if_neg h]
      have h2 : (kv2.1 : Int × Int) ≠ (kv1.1.2, c) :=
        fun hh => h (congrArg Prod.fst hh).symm
      rw [hc, ih, sumAt_cons, if_neg h2, zero_add]

theorem getAt_cons (kv : (Int × Int) × Int) (l : List ((Int × Int) × Int)) (r c : Int) :
    getAt (kv :: l) r c = if kv.1 = (r, c) then kv.2 else getAt l r c := by
  by_cases h : kv.1 = (r, c) <;> simp [getAt, dictGet, h]

theorem getAt_eq_zero (l : List ((Int × Int) × Int)) (r c : Int)
    (h : ((r, c) : Int × Int) ∉ l.map Prod.fst) : getAt l r c = 0 := by
  rw [getAt, dictGet_eq_none _ _ h]
  rfl

/-- The row-slice sum of a duplicate-free in-`s` element store: summing
the stored values of row `r` weighted by `g` equals summing
`getAt l r k * g k` over all of `s`. -/
theorem sum_support (l : List ((Int × Int) × Int)) (r : Int) (g : Int → Int)
    (s : Finset Int) :
    (l.map Prod.fst).Nodup → (∀ kv ∈ l, kv.1.2 ∈ s) →
      (l.map fun kv => if kv.1.1 = r then kv.2 * g kv.1.2 else 0).sum
        = ∑ k in s, getAt l r k * g k := by
  induction l with
  | nil =>
    intro _ _
    simp [getAt, dictGet]
  | cons kv0 rest ih =>
    intro hnd hs
    obtain ⟨h1, h2⟩ := by simpa using hnd
    have hmem : kv0.1.2 ∈ s := hs kv0 (List.mem_cons_self _ _)
    rw [List.map_cons, List.sum_cons,
      ih h2 (fun kv hkv => hs kv (List.mem_cons_of_mem _ hkv))]
    by_cases hr : kv0.1.1 = r
    · have hk0 : kv0.1 = (r, kv0.1.2) := by rw [← hr]
      have hzero : getAt rest r kv0.1.2 = 0 :=
        getAt_eq_zero _ _ _ (by rw [← hk0]; simpa using h1)
      have hsum : ∑ k in s.erase kv0.1.2, getAt (kv0 :: rest) r k * g k
          = ∑ k in s.erase kv0.1.2, getAt rest r k * g k := by
        refine Finset.sum_congr rfl (fun k hk => ?_)
        rw [getAt_cons, if_neg (fun hh =>
          (Finset.mem_erase.mp hk).1 (congrArg Prod.snd (hk0.symm.trans hh)).symm)]
      rw [if_pos hr,
        ← Finset.add_sum_erase s (fun k => getAt (kv0 :: rest) r k * g k) hmem,
        ← Finset.add_sum_erase s (fun k => getAt rest r k * g k) hmem,
        hsum, getAt_cons, if_pos hk0, hzero]
      ring
    · have hcg : ∀ k ∈ s, getAt (kv0 :: rest) r k * g k = getAt rest r k * g k :=
        fun k _ => by rw [getAt_cons, if_neg (fun hh => hr (congrArg Prod.fst hh))]
      rw [if_neg hr, zero_add]
      exact (Finset.sum_congr rfl hcg).symm

theorem dims_accumInto (l : List ((Int × Int) × Int)) :
    ∀ (m : SparseMatrix), (∀ kv ∈ l, kv.1.1 < m.rows ∧ kv.1.2 < m.cols) →
      (accumInto m l).rows = m.rows ∧ (accumInto m l).cols = m.cols := by
  induction l with
  | nil => intro m _; exact ⟨rfl, rfl⟩
  | cons kv rest ih =>
    intro m h
    have hk := h kv (List.mem_cons_self _ _)
    rw [accumInto_cons]
    have hrows : (m.set_element kv.1.1 kv.1.2
        (m.get_element kv.1.1 kv.1.2 + kv.2)).rows = m.rows := by
      rw [rows_set, if_neg (not_le.mpr hk.1)]
    have hcols : (m.set_element kv.1.1 kv.1.2
        (m.get_element kv.1.1 kv.1.2 + kv.2)).cols = m.cols := by
      rw [cols_set, if_neg (not_le.mpr hk.2)]
    obtain ⟨ih1, ih2⟩ := ih _ (fun kv' hkv' => by
      rw [hrows, hcols]; exact h kv' (List.mem_cons_of_mem _ hkv'))
    exact ⟨ih1.trans hrows, ih2.trans hcols⟩

theorem mem_mulContribs {a b : List ((Int × Int) × Int)} {kv : (Int × Int) × Int}
    (h : kv ∈ mulContribs a b) :
    ∃ kv1 ∈ a, ∃ kv2 ∈ b, kv1.1.2 = kv2.1.1 ∧ kv = ((kv1.1.1, kv2.1.2), kv1.2 * kv2.2) := by
  simp only [mulContribs, List.mem_flatMap, List.mem_filterMap] at h
  obtain ⟨kv1, h1, kv2, h2, hmk⟩ := h
  rw [mulContrib] at hmk
  by_cases hc : kv1.1.2 = kv2.1.1
  · rw [if_pos hc] at hmk
    exact ⟨kv1, h1, kv2, h2, hc, (Option.some.inj hmk).symm⟩
  · rw [if_neg hc] at hmk
    exact Option.noConfusion hmk

/-- C2: for well-formed matrices with `A.cols = B.rows`, `multiply`
succeeds, the result has dimensions `(A.rows, B.cols)`, and every
coordinate of the result reads the dot product
`Σ_k A.get(r,k) * B.get(k,c)` over the inner dimension. -/
theorem claim_c2 (A B : SparseMatrix) (hA : A.wf) (hB : B.wf) (hd : A.cols = B.rows) :
    ∃ M, A.multiply B = .ok M ∧ M.rows = A.rows ∧ M.cols = B.cols ∧
      ∀ r c, M.get_element r c
        = ∑ k in Finset.Icc (0 : Int) (A.cols - 1),
            A.get_element r k * B.get_element k c := by
  have hbound : ∀ kv ∈ mulContribs A.elements B.elements,
      kv.1.1 < (SparseMatrix.new A.rows B.cols).rows ∧
        kv.1.2 < (SparseMatrix.new A.rows B.cols).cols := by
    intro kv hkv
    obtain ⟨kv1, h1, kv2, h2, hc, hkv_eq⟩ := mem_mulContribs hkv
    subst hkv_eq
    exact ⟨(hA.2 kv1 h1).2.1, (hB.2 kv2 h2).2.2.2⟩
  refine ⟨mulAccum A.elements B.elements (SparseMatrix.new A.rows B.cols), ?_, ?_, ?_, ?_⟩
  · rw [SparseMatrix.multiply, if_neg (by simp [hd])]
  · rw [mulAccum_eq]
    exact (dims_accumInto _ _ hbound).1
  · rw [mulAccum_eq]
    exact (dims_accumInto _ _ hbound).2
  · intro r c
    rw [mulAccum_eq, get_accumInto, get_new, zero_add, sumAt_mulContribs]
    have hkcol : ∀ kv ∈ A.elements, kv.1.2 ∈ Finset.Icc (0 : Int) (A.cols - 1) := by
      intro kv hkv
      rw [Finset.mem_Icc]
      have h := hA.2 kv hkv
      omega
    have hcong : (A.elements.map fun kv1 =>
          sumAt (B.elements.filterMap (mulContrib kv1)) (r, c))
        = (A.elements.map fun kv1 =>
          if kv1.1.1 = r then kv1.2 * getAt B.elements kv1.1.2 c else 0) := by
      refine congrArg (fun f => List.map f A.elements) (funext fun kv1 => ?_)
      rw [sumAt_filterMap, sumAt_eq_dictGet _ _ hB.1]
      rfl
    rw [hcong]
    exact sum_support A.elements r (fun k => getAt B.elements k c)
      (Finset.Icc (0 : Int) (A.cols - 1)) hA.1 hkcol

theorem claim_c2_witness :
    ((SparseMatrix.new 2 2).set_element 0 0 3).wf ∧
    ∃ M, ((SparseMatrix.new 2 2).set_element 0 0 3).multiply
        ((SparseMatrix.new 2 3).set_element 0 1 4) = .ok M ∧
      M.rows = ((SparseMatrix.new 2 2).set_element 0 0 3).rows ∧
      M.cols = ((SparseMatrix.new 2 3).set_element 0 1 4).cols ∧
      ∀ r c, M.get_element r c
        = ∑ k in Finset.Icc (0 : Int) (((SparseMatrix.new 2 2).set_element 0 0 3).cols - 1),
            ((SparseMatrix.new 2 2).set_element 0 0 3).get_element r k *
              ((SparseMatrix.new 2 3).set_element 0 1 4).get_element k c :=
  ⟨by decide,
    claim_c2 ((SparseMatrix.new 2 2).set_element 0 0 3)
      ((SparseMatrix.new 2 3).set_element 0 1 4) (by decide) (by decide) rfl⟩

/-! ### Heap frame lemmas -/

theorem readRef_writeRef_ne (h : Heap) :
    ∀ (ρ i : Ref) (m : SparseMatrix), i ≠ ρ →
      readRef (writeRef h ρ m) i = readRef h i := by
  induction h with
  | nil => intro ρ i m _; rfl
  | cons x rest ih =>
    intro ρ i m hne
    cases ρ with
    | zero =>
      cases i with
      | zero => exact absurd rfl hne
      | succ j => rfl
    | succ ρ' =>
      cases i with
      | zero => rfl
      | succ j =>
        show readRef (writeRef rest ρ' m) j = readRef rest j
        exact ih ρ' j m (fun hh => hne (congrArg Nat.succ hh))

theorem readRef_append_ne (h : Heap) (x : SparseMatrix) (i : Ref) (hne : i ≠ h.length) :
    readRef (h ++ [x]) i = readRef h i := by
  induction h generalizing i with
  | nil =>
    cases i with
    | zero => exact absurd rfl hne
    | succ j => cases j <;> rfl
  | cons y rest ih =>
    cases i with
    | zero => rfl
    | succ j =>
      show readRef (rest ++ [x]) j = readRef rest j
      exact ih j (fun hh => hne (congrArg Nat.succ hh))

theorem readRef_lt_length {h : Heap} {i : Ref} {m : SparseMatrix}
    (hm : readRef h i = some m) : i < h.length := by
  by_contra hcon
  rw [readRef, List.get?_eq_none.mpr (Nat.le_of_not_lt hcon)] at hm
  exact Option.noConfusion hm

theorem readRef_set_elementH_ne (h : Heap) (ρ : Ref) (r c v : Int) (i : Ref)
    (hne : i ≠ ρ) : readRef (set_elementH h ρ r c v) i = readRef h i := by
  cases hh : readRef h ρ with
  | none => rw [set_elementH, hh]
  | some m => rw [set_elementH, hh]; exact readRef_writeRef_ne h ρ i _ hne

theorem get_elementH_some {h : Heap} {ρ : Ref} {r c : Int} {p : Int × Heap}
    (hp : get_elementH h ρ r c = some p) : p.2 = h := by
  rw [get_elementH] at hp
  cases hh : readRef h ρ with
  | none => rw [hh] at hp; exact Option.noConfusion hp
  | some m =>
    rw [hh] at hp
    obtain rfl := Option.some.inj hp
    rfl

theorem foldl_frame {α : Type} (f : Heap → α → Heap) (ρ : Ref)
    (hf : ∀ (hh : Heap) (x : α) (i : Ref), i ≠ ρ → readRef (f hh x) i = readRef hh i) :
    ∀ (l : List α) (hh : Heap) (i : Ref), i ≠ ρ →
      readRef (l.foldl f hh) i = readRef hh i := by
  intro l
  induction l with
  | nil => intro hh i _; rfl
  | cons x rest ih =>
    intro hh i hne
    rw [List.foldl_cons, ih (f hh x) i hne, hf hh x i hne]

theorem copy_loop_frame (ρ : Ref) (hh : Heap) (kv : (Int × Int) × Int) (i : Ref)
    (hne : i ≠ ρ) :
    readRef (set_elementH hh ρ kv.1.1 kv.1.2 kv.2) i = readRef hh i :=
  readRef_set_elementH_ne hh ρ _ _ _ i hne

theorem accum_step_frame (ρ : Ref) (r c : Int) (g : Int → Int) (hh : Heap)
    (i : Ref) (hne : i ≠ ρ) :
    readRef (match get_elementH hh ρ r c with
      | some (cur, hh') => set_elementH hh' ρ r c (g cur)
      | none => hh) i = readRef hh i := by
  cases hg : get_elementH hh ρ r c with
  | none => rfl
  | some p =>
    obtain ⟨cur, hh'⟩ := p
    have h2 : hh' = hh := get_elementH_some hg
    subst h2
    exact readRef_set_elementH_ne _ ρ _ _ _ i hne

theorem addH_frame {h : Heap} {a b : Ref} {h' : Heap} {ρ : Ref}
    (hok : addH h a b = .ok (h', ρ)) :
    ρ = h.length ∧ a ≠ ρ ∧ b ≠ ρ ∧ ∀ i, i ≠ ρ → readRef h' i = readRef h i := by
  unfold addH at hok
  split at hok
  case _ A B hA hB =>
    split at hok
    · exact Except.noConfusion hok
    case _ hd =>
      obtain ⟨h3eq, ρeq⟩ := Prod.mk.inj (Except.ok.inj hok)
      subst ρeq
      refine ⟨rfl, fun hh => Nat.lt_irrefl _ (hh ▸ readRef_lt_length hA),
        fun hh => Nat.lt_irrefl _ (hh ▸ readRef_lt_length hB), fun i hne => ?_⟩
      rw [← h3eq]
      rw [foldl_frame _ h.length
        (fun hh x j hj => accum_step_frame h.length x.1.1 x.1.2 (fun cur => cur + x.2) hh j hj)
        _ _ i hne]
      rw [foldl_frame _ h.length
        (fun hh x j hj => copy_loop_frame h.length hh x j hj) _ _ i hne]
      exact readRef_append_ne h _ i hne
  case _ => exact Except.noConfusion hok

theorem subtractH_frame {h : Heap} {a b : Ref} {h' : Heap} {ρ : Ref}
    (hok : subtractH h a b = .ok (h', ρ)) :
    ρ = h.length ∧ a ≠ ρ ∧ b ≠ ρ ∧ ∀ i, i ≠ ρ → readRef h' i = readRef h i := by
  unfold subtractH at hok
  split at hok
  case _ A B hA hB =>
    split at hok
    · exact Except.noConfusion hok
    case _ hd =>
      obtain ⟨h3eq, ρeq⟩ := Prod.mk.inj (Except.ok.inj hok)
      subst ρeq
      refine ⟨rfl, fun hh => Nat.lt_irrefl _ (hh ▸ readRef_lt_length hA),
        fun hh => Nat.lt_irrefl _ (hh ▸ readRef_lt_length hB), fun i hne => ?_⟩
      rw [← h3eq]
      rw [foldl_frame _ h.length
        (fun hh x j hj => accum_step_frame h.length x.1.1 x.1.2 (fun cur => cur - x.2) hh j hj)
        _ _ i hne]
      rw [foldl_frame _ h.length
        (fun hh x j hj => copy_loop_frame h.length hh x j hj) _ _ i hne]
      exact readRef_append_ne h _ i hne
  case _ => exact Except.noConfusion hok

theorem mul_inner_frame (ρ : Ref) (kv1 : (Int × Int) × Int) (hh2 : Heap)
    (kv2 : (Int × Int) × Int) (i : Ref) (hne : i ≠ ρ) :
    readRef (if kv1.1.2 = kv2.1.1 then
        match get_elementH hh2 ρ kv1.1.1 kv2.1.2 with
        | some (cur, hh') => set_elementH hh' ρ kv1.1.1 kv2.1.2 (cur + kv1.2 * kv2.2)
        | none => hh2
      else hh2) i = readRef hh2 i := by
  by_cases hc : kv1.1.2 = kv2.1.1
  · rw [if_pos hc]
    exact accum_step_frame ρ kv1.1.1 kv2.1.2 (fun cur => cur + kv1.2 * kv2.2) hh2 i hne
  · rw [if_neg hc]

theorem multiplyH_frame {h : Heap} {a b : Ref} {h' : Heap} {ρ : Ref}
    (hok : multiplyH h a b = .ok (h', ρ)) :
    ρ = h.length ∧ a ≠ ρ ∧ b ≠ ρ ∧ ∀ i, i ≠ ρ → readRef h' i = readRef h i := by
  unfold multiplyH at hok
  split at hok
  case _ A B hA hB =>
    split at hok
    · exact Except.noConfusion hok
    case _ hd =>
      obtain ⟨h2eq, ρeq⟩ := Prod.mk.inj (Except.ok.inj hok)
      subst ρeq
      refine ⟨rfl, fun hh => Nat.lt_irrefl _ (hh ▸ readRef_lt_length hA),
        fun hh => Nat.lt_irrefl _ (hh ▸ readRef_lt_length hB), fun i hne => ?_⟩
      rw [← h2eq]
      rw [foldl_frame _ h.length
        (fun hh x j hj => foldl_frame _ h.length
          (fun hh2 y j2 hj2 => mul_inner_frame h.length x hh2 y j2 hj2)
          B.elements hh j hj)
        _ _ i hne]
      exact readRef_append_ne h _ i hne
  case _ => exact Except.noConfusion hok

/-- C9: each of the three heap-level arithmetic operations, when it
succeeds, leaves every pre-existing heap cell untouched — in
particular both operand objects (and hence their `to_string` output)
are identical before and after the call — and returns a reference to a
freshly allocated cell distinct from both operands (`ρ` is the first
index beyond the old heap). -/
theorem claim_c9 (h : Heap) (a b : Ref) (h' : Heap) (ρ : Ref) :
    (addH h a b = .ok (h', ρ) →
      ρ = h.length ∧ a ≠ ρ ∧ b ≠ ρ ∧
      readRef h' a = readRef h a ∧ readRef h' b = readRef h b ∧
      (readRef h' a).map SparseMatrix.to_string = (readRef h a).map SparseMatrix.to_string ∧
      (readRef h' b).map SparseMatrix.to_string = (readRef h b).map SparseMatrix.to_string ∧
      ∀ i, i ≠ ρ → readRef h' i = readRef h i) ∧
    (subtractH h a b = .ok (h', ρ) →
      ρ = h.length ∧ a ≠ ρ ∧ b ≠ ρ ∧
      readRef h' a = readRef h a ∧ readRef h' b = readRef h b ∧
      (readRef h' a).map SparseMatrix.to_string = (readRef h a).map SparseMatrix.to_string ∧
      (readRef h' b).map SparseMatrix.to_string = (readRef h b).map SparseMatrix.to_string ∧
      ∀ i, i ≠ ρ → readRef h' i = readRef h i) ∧
    (multiplyH h a b = .ok (h', ρ) →
      ρ = h.length ∧ a ≠ ρ ∧ b ≠ ρ ∧
      readRef h' a = readRef h a ∧ readRef h' b = readRef h b ∧
      (readRef h' a).map SparseMatrix.to_string = (readRef h a).map SparseMatrix.to_string ∧
      (readRef h' b).map SparseMatrix.to_string = (readRef h b).map SparseMatrix.to_string ∧
      ∀ i, i ≠ ρ → readRef h' i = readRef h i) := by
  refine ⟨fun hok => ?_, fun hok => ?_, fun hok => ?_⟩
  · obtain ⟨hρ, ha, hb, hfr⟩ := addH_frame hok
    exact ⟨hρ, ha, hb, hfr a ha, hfr b hb, by rw [hfr a ha], by rw [hfr b hb], hfr⟩
  · obtain ⟨hρ, ha, hb, hfr⟩ := subtractH_frame hok
    exact ⟨hρ, ha, hb, hfr a ha, hfr b hb, by rw [hfr a ha], by rw [hfr b hb], hfr⟩
  · obtain ⟨hρ, ha, hb, hfr⟩ := multiplyH_frame hok
    exact ⟨hρ, ha, hb, hfr a ha, hfr b hb, by rw [hfr a ha], by rw [hfr b hb], hfr⟩

/-- C10: a heap-level `get_element` call returns the heap exactly as
it was — it inserts nothing into any element store and changes no
dimension field, at any coordinate including out-of-range and negative
ones. -/
theorem claim_c10 (h : Heap) (ρ : Ref) (r c : Int) (p : Int × Heap)
    (hp : get_elementH h ρ r c = some p) :
    p.2 = h ∧ ∀ i, readRef p.2 i = readRef h i := by
  have heq := get_elementH_some hp
  exact ⟨heq, fun i => by rw [heq]⟩

theorem claim_c10_witness :
    ((5 : Int), ([⟨1, 1, [((0, 0), 5)]⟩] : Heap)).2 = ([⟨1, 1, [((0, 0), 5)]⟩] : Heap) ∧
    ∀ i, readRef ((5 : Int), ([⟨1, 1, [((0, 0), 5)]⟩] : Heap)).2 i
      = readRef ([⟨1, 1, [((0, 0), 5)]⟩] : Heap) i :=
  claim_c10 [⟨1, 1, [((0, 0), 5)]⟩] 0 0 0 (5, [⟨1, 1, [((0, 0), 5)]⟩]) rfl

theorem claim_c9_witness :
    (2 : Ref) = ([⟨1, 1, [((0, 0), 1)]⟩, ⟨1, 1, [((0, 0), 2)]⟩] : Heap).length ∧
    (0 : Ref) ≠ 2 ∧ (1 : Ref) ≠ 2 ∧
    readRef [⟨1, 1, [((0, 0), 1)]⟩, ⟨1, 1, [((0, 0), 2)]⟩, ⟨1, 1, [((0, 0), 3)]⟩] 0
      = readRef [⟨1, 1, [((0, 0), 1)]⟩, ⟨1, 1, [((0, 0), 2)]⟩] 0 ∧
    readRef [⟨1, 1, [((0, 0), 1)]⟩, ⟨1, 1, [((0, 0), 2)]⟩, ⟨1, 1, [((0, 0), 3)]⟩] 1
      = readRef [⟨1, 1, [((0, 0), 1)]⟩, ⟨1, 1, [((0, 0), 2)]⟩] 1 ∧
    (readRef [⟨1, 1, [((0, 0), 1)]⟩, ⟨1, 1, [((0, 0), 2)]⟩, ⟨1, 1, [((0, 0), 3)]⟩] 0).map
        SparseMatrix.to_string
      = (readRef [⟨1, 1, [((0, 0), 1)]⟩, ⟨1, 1, [((0, 0), 2)]⟩] 0).map SparseMatrix.to_string ∧
    (readRef [⟨1, 1, [((0, 0), 1)]⟩, ⟨1, 1, [((0, 0), 2)]⟩, ⟨1, 1, [((0, 0), 3)]⟩] 1).map
        SparseMatrix.to_string
      = (readRef [⟨1, 1, [((0, 0), 1)]⟩, ⟨1, 1, [((0, 0), 2)]⟩] 1).map SparseMatrix.to_string ∧
    ∀ i, i ≠ 2 →
      readRef [⟨1, 1, [((0, 0), 1)]⟩, ⟨1, 1, [((0, 0), 2)]⟩, ⟨1, 1, [((0, 0), 3)]⟩] i
        = readRef [⟨1, 1, [((0, 0), 1)]⟩, ⟨1, 1, [((0, 0), 2)]⟩] i :=
  (claim_c9 [⟨1, 1, [((0, 0), 1)]⟩, ⟨1, 1, [((0, 0), 2)]⟩] 0 1
    [⟨1, 1, [((0, 0), 1)]⟩, ⟨1, 1, [((0, 0), 2)]⟩, ⟨1, 1, [((0, 0), 3)]⟩] 2).1 rfl

/-! ### Decimal representation and `int(...)` parsing lemmas -/

theorem digitChar_isDigit : ∀ d, d < 10 → isDigitChar (digitChar d) = true := by decide

theorem digitChar_toNat : ∀ d, d < 10 → (digitChar d).toNat - 48 = d := by decide

theorem digitChar_not_space : ∀ d, d < 10 → isPySpace (digitChar d) = false := by decide

theorem digitChar_not_paren : ∀ d, d < 10 → isParenChar (digitChar d) = false := by decide

theorem digitChar_ne : ∀ d, d < 10 → digitChar d ≠ '\n' ∧ digitChar d ≠ ',' ∧
    digitChar d ≠ '=' ∧ digitChar d ≠ '-' ∧ digitChar d ≠ '+' := by decide

theorem natReprAux_ne_nil : ∀ fuel n, n < fuel → natReprAux fuel n ≠ [] := by
  intro fuel n h
  match fuel with
  | 0 => omega
  | f + 1 =>
    rw [natReprAux]
    split
    · simp
    · simp

theorem natReprAux_mem_digit : ∀ fuel n ch, n < fuel → ch ∈ natReprAux fuel n →
    ∃ d, d < 10 ∧ ch = digitChar d := by
  intro fuel
  induction fuel with
  | zero => intro n ch h; omega
  | succ f ih =>
    intro n ch h hmem
    rw [natReprAux] at hmem
    by_cases h10 : n < 10
    · rw [if_pos h10] at hmem
      simp only [List.mem_singleton] at hmem
      exact ⟨n, h10, hmem⟩
    · rw [if_neg h10] at hmem
      rcases List.mem_append.mp hmem with h1 | h2
      · exact ih (n / 10) ch (by omega) h1
      · simp only [List.mem_singleton] at h2
        exact ⟨n % 10, Nat.mod_lt _ (by omega), h2⟩

theorem natReprAux_getLast? : ∀ fuel n, n < fuel →
    (natReprAux fuel n).getLast? = some (digitChar (n % 10)) := by
  intro fuel n h
  match fuel with
  | 0 => omega
  | f + 1 =>
    rw [natReprAux]
    by_cases h10 : n < 10
    · rw [if_pos h10, Nat.mod_eq_of_lt h10]
      rfl
    · rw [if_neg h10]
      exact List.getLast?_concat _

theorem natReprAux_cons_digit : ∀ fuel n, n < fuel →
    ∃ d t, d < 10 ∧ natReprAux fuel n = digitChar d :: t := by
  intro fuel
  induction fuel with
  | zero => intro n h; omega
  | succ f ih =>
    intro n h
    by_cases h10 : n < 10
    · exact ⟨n, [], h10, by rw [natReprAux, if_pos h10]⟩
    · obtain ⟨d, t, hd, heq⟩ := ih (n / 10) (by omega)
      exact ⟨d, t ++ [digitChar (n % 10)], hd, by rw [natReprAux, if_neg h10, heq]; rfl⟩

theorem digitsAux_append : ∀ (l1 l2 : List Char) (acc : Nat),
    digitsAux acc (l1 ++ l2) = match digitsAux acc l1 with
      | some a => digitsAux a l2
      | none => none := by
  intro l1
  induction l1 with
  | nil => intro l2 acc; rfl
  | cons c t ih =>
    intro l2 acc
    simp only [List.cons_append, digitsAux, List.append_eq]
    by_cases hc : isDigitChar c
    · rw [if_pos hc, if_pos hc, ih]
    · rw [if_neg hc, if_neg hc]

theorem digitsAux_natReprAux : ∀ fuel n acc, n < fuel →
    digitsAux acc (natReprAux fuel n)
      = some (acc * 10 ^ (natReprAux fuel n).length + n) := by
  intro fuel
  induction fuel with
  | zero => intro n acc h; omega
  | succ f ih =>
    intro n acc h
    by_cases h10 : n < 10
    · rw [natReprAux, if_pos h10]
      show (if isDigitChar (digitChar n) = true then
        digitsAux (acc * 10 + ((digitChar n).toNat - 48)) [] else none) = _
      rw [if_pos (digitChar_isDigit n h10)]
      show some (acc * 10 + ((digitChar n).toNat - 48)) = _
      rw [digitChar_toNat n h10]
      simp [pow_one]
    · rw [natReprAux, if_neg h10, digitsAux_append, ih (n / 10) acc (by omega)]
      show (if isDigitChar (digitChar (n % 10)) = true then
        digitsAux ((acc * 10 ^ (natReprAux f (n / 10)).length + n / 10) * 10
          + ((digitChar (n % 10)).toNat - 48)) [] else none) = _
      rw [if_pos (digitChar_isDigit _ (Nat.mod_lt _ (by omega))),
        digitChar_toNat _ (Nat.mod_lt _ (by omega))]
      show some _ = some _
      congr 1
      rw [List.length_append, List.length_singleton, pow_succ, ← mul_assoc]
      generalize acc * 10 ^ (natReprAux f (n / 10)).length = Q
      omega

theorem digitsToNat_natRepr (n : Nat) : digitsToNat (natRepr n) = some n := by
  have h := digitsAux_natReprAux (n + 1) n 0 (Nat.lt_succ_self n)
  have hne := natReprAux_ne_nil (n + 1) n (Nat.lt_succ_self n)
  rw [natRepr]
  obtain ⟨c, t, heq⟩ := List.exists_cons_of_ne_nil hne
  rw [heq] at h ⊢
  show digitsAux 0 (c :: t) = some n
  rw [h]
  simp

theorem intRepr_mem {i : Int} {ch : Char} (h : ch ∈ intRepr i) :
    ch = '-' ∨ ∃ d, d < 10 ∧ ch = digitChar d := by
  rw [intRepr] at h
  by_cases hneg : i < 0
  · rw [if_pos hneg] at h
    rcases List.mem_cons.mp h with h1 | h2
    · exact Or.inl h1
    · exact Or.inr (natReprAux_mem_digit _ _ ch (Nat.lt_succ_self _) h2)
  · rw [if_neg hneg] at h
    exact Or.inr (natReprAux_mem_digit _ _ ch (Nat.lt_succ_self _) h)

theorem intRepr_no_space {i : Int} : ∀ ch ∈ intRepr i, isPySpace ch = false := by
  intro ch h
  rcases intRepr_mem h with h1 | ⟨d, hd, h2⟩
  · subst h1; decide
  · subst h2; exact digitChar_not_space d hd

theorem intRepr_no_paren {i : Int} : ∀ ch ∈ intRepr i, isParenChar ch = false := by
  intro ch h
  rcases intRepr_mem h with h1 | ⟨d, hd, h2⟩
  · subst h1; decide
  · subst h2; exact digitChar_not_paren d hd

theorem intRepr_no_newline {i : Int} : ∀ ch ∈ intRepr i, ch ≠ '\n' := by
  intro ch h
  rcases intRepr_mem h with h1 | ⟨d, hd, h2⟩
  · subst h1; decide
  · subst h2; exact (digitChar_ne d hd).1

theorem intRepr_no_comma {i : Int} : ∀ ch ∈ intRepr i, ch ≠ ',' := by
  intro ch h
  rcases intRepr_mem h with h1 | ⟨d, hd, h2⟩
  · subst h1; decide
  · subst h2; exact (digitChar_ne d hd).2.1

theorem intRepr_no_eq {i : Int} : ∀ ch ∈ intRepr i, ch ≠ '=' := by
  intro ch h
  rcases intRepr_mem h with h1 | ⟨d, hd, h2⟩
  · subst h1; decide
  · subst h2; exact (digitChar_ne d hd).2.2.1

theorem intRepr_ne_nil (i : Int) : intRepr i ≠ [] := by
  rw [intRepr]
  by_cases hneg : i < 0
  · rw [if_pos hneg]; simp
  · rw [if_neg hneg]; exact natReprAux_ne_nil _ _ (Nat.lt_succ_self _)

theorem intRepr_getLast?_digit (i : Int) :
    ∃ d, d < 10 ∧ (intRepr i).getLast? = some (digitChar d) := by
  rw [intRepr]
  by_cases hneg : i < 0
  · rw [if_pos hneg]
    refine ⟨(-i).toNat % 10, Nat.mod_lt _ (by omega), ?_⟩
    have hne := natReprAux_ne_nil ((-i).toNat + 1) (-i).toNat (Nat.lt_succ_self _)
    obtain ⟨c, t, heq⟩ := List.exists_cons_of_ne_nil hne
    rw [natRepr, heq, List.getLast?_cons_cons, ← heq, ← natRepr]
    exact natReprAux_getLast? _ _ (Nat.lt_succ_self _)
  · rw [if_neg hneg]
    exact ⟨i.toNat % 10, Nat.mod_lt _ (by omega),
      natReprAux_getLast? _ _ (Nat.lt_succ_self _)⟩

theorem pyIntCore_intRepr (i : Int) : pyIntCore (intRepr i) = some i := by
  rw [intRepr]
  by_cases hneg : i < 0
  · rw [if_pos hneg]
    show ((digitsToNat (natRepr (-i).toNat)).map fun n => -(n : Int)) = some i
    rw [digitsToNat_natRepr]
    show some (-(((-i).toNat : Nat) : Int)) = some i
    congr 1
    omega
  · obtain ⟨d, t, hd, heq⟩ := natReprAux_cons_digit (i.toNat + 1) i.toNat (Nat.lt_succ_self _)
    rw [if_neg hneg, natRepr, heq]
    have h1 : digitChar d ≠ '-' := (digitChar_ne d hd).2.2.2.1
    have h2 : digitChar d ≠ '+' := (digitChar_ne d hd).2.2.2.2
    simp only [pyIntCore]
    rw [if_neg (by simp [h1]), if_neg (by simp [h2]), ← heq, ← natRepr, digitsToNat_natRepr]
    show some ((i.toNat : Int)) = some i
    congr 1
    omega

theorem stripWhile_all_neg {p : Char → Bool} {l : List Char}
    (h : ∀ ch ∈ l, p ch = false) : stripWhile p l = l := by
  have h1 : l.dropWhile p = l := by
    cases l with
    | nil => rfl
    | cons x xs =>
      rw [List.dropWhile_cons, if_neg (by simp [h x (List.mem_cons_self x xs)])]
  have h2 : l.reverse.dropWhile p = l.reverse := by
    cases hrev : l.reverse with
    | nil => rfl
    | cons x xs =>
      have hx : p x = false :=
        h x (by rw [← List.mem_reverse, hrev]; exact List.mem_cons_self x xs)
      rw [List.dropWhile_cons, if_neg (by simp [hx])]
  rw [stripWhile, h1, h2, List.reverse_reverse]

theorem pyInt_intRepr (i : Int) : pyInt (intRepr i) = .ok i := by
  rw [pyInt, stripWhile_all_neg intRepr_no_space, pyIntCore_intRepr]

theorem pyInt_space_intRepr (i : Int) : pyInt (' ' :: intRepr i) = .ok i := by
  rw [pyInt]
  have hstrip : stripWhile isPySpace (' ' :: intRepr i) = stripWhile isPySpace (intRepr i) := by
    simp only [stripWhile]
    rw [List.dropWhile_cons, if_pos (by decide)]
  rw [hstrip, stripWhile_all_neg intRepr_no_space, pyIntCore_intRepr]

/-! ### `strip` / `split` / line-joining lemmas -/

theorem stripWhile_eq_self {p : Char → Bool} {l : List Char} (hne : l ≠ [])
    (hh : p (l.head hne) = false) (hl : p (l.getLast hne) = false) :
    stripWhile p l = l := by
  obtain ⟨x, xs, rfl⟩ := List.exists_cons_of_ne_nil hne
  have hx : p x = false := hh
  rw [stripWhile, List.dropWhile_cons, if_neg (by simp [hx])]
  have hrev : (x :: xs).reverse = (x :: xs).getLast hne :: (x :: xs).dropLast.reverse := by
    conv_lhs => rw [← List.dropLast_append_getLast hne]
    rw [List.reverse_append]
    rfl
  rw [hrev, List.dropWhile_cons, if_neg (by simp [hl]), ← hrev, List.reverse_reverse]

theorem stripWhile_append_newline {l : List Char} (hne : l ≠ [])
    (hh : isPySpace (l.head hne) = false) (hl : isPySpace (l.getLast hne) = false) :
    stripWhile isPySpace (l ++ ['\n']) = l := by
  obtain ⟨x, xs, rfl⟩ := List.exists_cons_of_ne_nil hne
  have hx : isPySpace x = false := hh
  rw [stripWhile, List.cons_append, List.dropWhile_cons, if_neg (by simp [hx]),
    ← List.cons_append, List.reverse_append]
  show (List.dropWhile isPySpace ('\n' :: (x :: xs).reverse)).reverse = _
  rw [List.dropWhile_cons, if_pos (by decide)]
  have hrev : (x :: xs).reverse = (x :: xs).getLast hne :: (x :: xs).dropLast.reverse := by
    conv_lhs => rw [← List.dropLast_append_getLast hne]
    rw [List.reverse_append]
    rfl
  rw [hrev, List.dropWhile_cons, if_neg (by simp [hl]), ← hrev, List.reverse_reverse]

theorem strip_paren_wrap {inner : List Char} (hne : inner ≠ [])
    (hh : isParenChar (inner.head hne) = false)
    (hl : isParenChar (inner.getLast hne) = false) :
    stripWhile isParenChar ('(' :: (inner ++ [')'])) = inner := by
  obtain ⟨x, xs, rfl⟩ := List.exists_cons_of_ne_nil hne
  have hx : isParenChar x = false := hh
  rw [stripWhile, List.dropWhile_cons, if_pos (by decide), List.cons_append,
    List.dropWhile_cons, if_neg (by simp [hx]), ← List.cons_append, List.reverse_append]
  show (List.dropWhile isParenChar (')' :: (x :: xs).reverse)).reverse = _
  rw [List.dropWhile_cons, if_pos (by decide)]
  have hrev : (x :: xs).reverse = (x :: xs).getLast hne :: (x :: xs).dropLast.reverse := by
    conv_lhs => rw [← List.dropLast_append_getLast hne]
    rw [List.reverse_append]
    rfl
  rw [hrev, List.dropWhile_cons, if_neg (by simp [hl]), ← hrev, List.reverse_reverse]

theorem splitOnChar_not_mem {c : Char} {l : List Char} (h : c ∉ l) :
    splitOnChar c l = [l] := by
  induction l with
  | nil => rfl
  | cons x xs ih =>
    simp only [List.mem_cons, not_or] at h
    rw [splitOnChar, if_neg (fun hh => h.1 hh.symm), ih h.2]

theorem splitOnChar_append {c : Char} {l1 : List Char} (l2 : List Char) (h : c ∉ l1) :
    splitOnChar c (l1 ++ c :: l2) = l1 :: splitOnChar c l2 := by
  induction l1 with
  | nil => rw [List.nil_append, splitOnChar, if_pos rfl]
  | cons x xs ih =>
    simp only [List.mem_cons, not_or] at h
    rw [List.cons_append, splitOnChar, if_neg (fun hh => h.1 hh.symm), ih h.2]

theorem splitOnChar_ne_nil (c : Char) (l : List Char) : splitOnChar c l ≠ [] := by
  cases l with
  | nil => simp [splitOnChar]
  | cons x xs =>
    rw [splitOnChar]
    by_cases h : x = c
    · simp [h]
    · rw [if_neg h]
      cases hs : splitOnChar c xs <;> simp

theorem joinLines_cons_cons (l0 l1 : List Char) (rest : List (List Char)) :
    joinLines (l0 :: l1 :: rest) = l0 ++ '\n' :: joinLines (l1 :: rest) := rfl

theorem splitOnChar_joinLines : ∀ (lines : List (List Char)), lines ≠ [] →
    (∀ x ∈ lines, '\n' ∉ x) → splitOnChar '\n' (joinLines lines) = lines := by
  intro lines
  induction lines with
  | nil => intro h _; exact absurd rfl h
  | cons l0 rest ih =>
    intro _ hnc
    cases rest with
    | nil => exact splitOnChar_not_mem (hnc l0 (List.mem_cons_self _ _))
    | cons l1 rest' =>
      rw [joinLines_cons_cons,
        splitOnChar_append _ (hnc l0 (List.mem_cons_self _ _)),
        ih (by simp) (fun x hx => hnc x (List.mem_cons_of_mem _ hx))]

theorem joinLines_ne_nil : ∀ (lines : List (List Char)), lines ≠ [] →
    (∀ x ∈ lines, x ≠ []) → joinLines lines ≠ [] := by
  intro lines
  cases lines with
  | nil => intro h _; exact absurd rfl h
  | cons l0 rest =>
    intro _ hall
    cases rest with
    | nil => exact hall l0 (List.mem_cons_self _ _)
    | cons l1 rest' =>
      rw [joinLines_cons_cons]
      intro hcon
      rcases List.append_eq_nil.mp hcon with ⟨_, h2⟩
      exact List.cons_ne_nil _ _ h2

theorem joinLines_getLast? : ∀ (lines : List (List Char)) (hne : lines ≠ []),
    (∀ x ∈ lines, x ≠ []) →
    (joinLines lines).getLast? = (lines.getLast hne).getLast? := by
  intro lines
  induction lines with
  | nil => intro h; exact absurd rfl h
  | cons l0 rest ih =>
    intro hne hall
    cases rest with
    | nil => rfl
    | cons l1 rest' =>
      rw [joinLines_cons_cons]
      have hjoin_ne : joinLines (l1 :: rest') ≠ [] :=
        joinLines_ne_nil _ (by simp) (fun x hx => hall x (List.mem_cons_of_mem _ hx))
      obtain ⟨y, ys, hys⟩ := List.exists_cons_of_ne_nil hjoin_ne
      rw [List.getLast?_append_of_ne_nil _ (by simp), hys, List.getLast?_cons_cons, ← hys,
        ih (by simp) (fun x hx => hall x (List.mem_cons_of_mem _ hx))]
      exact congrArg List.getLast? (List.getLast_cons (by simp)).symm

/-! ### Serialization structure -/

theorem to_string_foldl : ∀ (l : List ((Int × Int) × Int)) (init : List Char),
    l.foldl (fun acc kv => acc ++ elementLine kv ++ ['\n']) init = init ++ seriBody l := by
  intro l
  induction l with
  | nil => intro init; simp [seriBody]
  | cons kv rest ih =>
    intro init
    rw [List.foldl_cons, ih, seriBody]
    simp [List.append_assoc]

theorem joinLines_seriBody : ∀ (l : List ((Int × Int) × Int)) (x : List Char),
    joinLines (x :: l.map elementLine) ++ ['\n'] = x ++ '\n' :: seriBody l := by
  intro l
  induction l with
  | nil => intro x; simp [joinLines, seriBody]
  | cons kv rest ih =>
    intro x
    rw [List.map_cons, joinLines_cons_cons, seriBody]
    simp only [List.append_assoc, List.cons_append]
    rw [ih]

theorem getLast?_append_right {l1 l2 : List Char} (h : l2 ≠ []) :
    (l1 ++ l2).getLast? = l2.getLast? :=
  List.getLast?_append_of_ne_nil _ h

theorem to_string_data (m : SparseMatrix) :
    (m.to_string).data = stripWhile isPySpace (joinLines (linesOf m) ++ ['\n']) := by
  rw [SparseMatrix.to_string]
  show stripWhile isPySpace _ = _
  rw [to_string_foldl]
  congr 1
  have hrhs : joinLines (linesOf m) ++ ['\n']
      = ("rows=".data ++ intRepr m.rows)
        ++ '\n' :: (("cols=".data ++ intRepr m.cols) ++ '\n' :: seriBody m.elements) := by
    rw [linesOf, joinLines_cons_cons, List.append_assoc, List.cons_append '\n',
      joinLines_seriBody]
  rw [hrhs]
  simp only [List.append_assoc, List.cons_append, List.singleton_append, List.nil_append]

theorem rowsLine_ne_nil (i : Int) : ("rows=".data ++ intRepr i) ≠ [] := by
  intro h
  exact absurd (List.append_eq_nil.mp h).1 (by decide)

theorem colsLine_ne_nil (i : Int) : ("cols=".data ++ intRepr i) ≠ [] := by
  intro h
  exact absurd (List.append_eq_nil.mp h).1 (by decide)

theorem elementLine_ne_nil (kv : (Int × Int) × Int) : elementLine kv ≠ [] :=
  List.cons_ne_nil _ _

theorem linesOf_ne_nil (m : SparseMatrix) : linesOf m ≠ [] := by
  rw [linesOf]; exact List.cons_ne_nil _ _

theorem linesOf_nonempty_lines (m : SparseMatrix) : ∀ x ∈ linesOf m, x ≠ [] := by
  intro x hx
  rw [linesOf] at hx
  rcases List.mem_cons.mp hx with h | hx
  · subst h; exact rowsLine_ne_nil _
  rcases List.mem_cons.mp hx with h | hx
  · subst h; exact colsLine_ne_nil _
  obtain ⟨kv, _, hkv⟩ := List.mem_map.mp hx
  subst hkv
  exact elementLine_ne_nil kv

theorem elementLine_no_newline (kv : (Int × Int) × Int) : '\n' ∉ elementLine kv := by
  intro h
  rw [elementLine] at h
  rcases List.mem_cons.mp h with h | h
  · exact absurd h (by decide)
  simp only [List.append_assoc, List.mem_append, List.mem_singleton] at h
  rcases h with h | h | h | h | h | h
  · exact intRepr_no_newline _ h rfl
  · exact absurd h (by decide)
  · exact intRepr_no_newline _ h rfl
  · exact absurd h (by decide)
  · exact intRepr_no_newline _ h rfl
  · exact absurd h (by decide)

theorem linesOf_no_newline (m : SparseMatrix) : ∀ x ∈ linesOf m, '\n' ∉ x := by
  intro x hx
  rw [linesOf] at hx
  rcases List.mem_cons.mp hx with h | hx
  · subst h
    intro h
    rcases List.mem_append.mp h with h | h
    · exact absurd h (by decide)
    · exact intRepr_no_newline _ h rfl
  rcases List.mem_cons.mp hx with h | hx
  · subst h
    intro h
    rcases List.mem_append.mp h with h | h
    · exact absurd h (by decide)
    · exact intRepr_no_newline _ h rfl
  obtain ⟨kv, _, hkv⟩ := List.mem_map.mp hx
  subst hkv
  exact elementLine_no_newline kv

theorem elementLine_getLast? (kv : (Int × Int) × Int) :
    (elementLine kv).getLast? = some ')' := by
  rw [elementLine]
  have hne : (intRepr kv.1.1 ++ ", ".data ++ intRepr kv.1.2
      ++ ", ".data ++ intRepr kv.2 ++ [')']) ≠ [] := by
    simp
  obtain ⟨y, ys, hys⟩ := List.exists_cons_of_ne_nil hne
  rw [hys, List.getLast?_cons_cons, ← hys, List.getLast?_concat]

theorem linesOf_ends_nonspace (m : SparseMatrix) :
    ∀ x ∈ linesOf m, ∀ ch, x.getLast? = some ch → isPySpace ch = false := by
  intro x hx ch hch
  rw [linesOf] at hx
  rcases List.mem_cons.mp hx with h | hx
  · subst h
    obtain ⟨d, hd, hdig⟩ := intRepr_getLast?_digit m.rows
    rw [getLast?_append_right (intRepr_ne_nil _), hdig] at hch
    obtain rfl := Option.some.inj hch
    exact digitChar_not_space d hd
  rcases List.mem_cons.mp hx with h | hx
  · subst h
    obtain ⟨d, hd, hdig⟩ := intRepr_getLast?_digit m.cols
    rw [getLast?_append_right (intRepr_ne_nil _), hdig] at hch
    obtain rfl := Option.some.inj hch
    exact digitChar_not_space d hd
  obtain ⟨kv, _, hkv⟩ := List.mem_map.mp hx
  subst hkv
  rw [elementLine_getLast? kv] at hch
  obtain rfl := Option.some.inj hch
  decide

theorem to_string_data_eq (m : SparseMatrix) :
    (m.to_string).data = joinLines (linesOf m) := by
  rw [to_string_data]
  have hne : joinLines (linesOf m) ≠ [] :=
    joinLines_ne_nil _ (linesOf_ne_nil m) (linesOf_nonempty_lines m)
  have hJ : ∃ t, joinLines (linesOf m) = 'r' :: t :=
    ⟨"ows=".data ++ intRepr m.rows ++ '\n'
        :: joinLines (("cols=".data ++ intRepr m.cols) :: m.elements.map elementLine),
      by rw [linesOf, joinLines_cons_cons]; rfl⟩
  have hh : isPySpace ((joinLines (linesOf m)).head hne) = false := by
    obtain ⟨t, ht⟩ := hJ
    have h1 : (joinLines (linesOf m)).head? = some 'r' := by rw [ht]; rfl
    rw [List.head?_eq_head hne] at h1
    rw [Option.some.inj h1]
    decide
  have hLne : (linesOf m).getLast (linesOf_ne_nil m) ≠ [] :=
    linesOf_nonempty_lines m _ (List.getLast_mem _)
  have h2 : ((linesOf m).getLast (linesOf_ne_nil m)).getLast?
      = some (((linesOf m).getLast (linesOf_ne_nil m)).getLast hLne) :=
    List.getLast?_eq_getLast_of_ne_nil hLne
  have h3 : (joinLines (linesOf m)).getLast?
      = some (((linesOf m).getLast (linesOf_ne_nil m)).getLast hLne) := by
    rw [joinLines_getLast? (linesOf m) (linesOf_ne_nil m) (linesOf_nonempty_lines m)]
    exact h2
  have hl : isPySpace ((joinLines (linesOf m)).getLast hne) = false := by
    have h4 : (joinLines (linesOf m)).getLast?
        = some ((joinLines (linesOf m)).getLast hne) :=
      List.getLast?_eq_getLast_of_ne_nil hne
    rw [h3] at h4
    rw [← Option.some.inj h4]
    exact linesOf_ends_nonspace m _ (List.getLast_mem _) _ h2
  exact stripWhile_append_newline hne hh hl

theorem pyReadLines_to_string (m : SparseMatrix) :
    pyReadLines ((m.to_string).data) = linesOf m := by
  rw [to_string_data_eq, pyReadLines,
    splitOnChar_joinLines (linesOf m) (linesOf_ne_nil m) (linesOf_no_newline m)]
  have hnil : (linesOf m).getLast? ≠ some [] := by
    intro hcon
    obtain ⟨hpf, heq⟩ :=
      List.mem_getLast?_eq_getLast (Option.mem_def.mpr hcon)
    exact linesOf_nonempty_lines m _ (heq ▸ List.getLast_mem hpf) rfl
  rw [if_neg hnil]

/-- C5: the serialized text consists of exactly the two header lines
followed by one line per stored element — including elements whose
value is 0 — in element-store order; the text does not end in a
newline (no trailing blank line); and the store order is insertion
order: overwriting an existing coordinate keeps its position in the
key sequence while updating the stored value, and a new coordinate is
appended at the end. -/
theorem claim_c5 (m : SparseMatrix) (r c v : Int) :
    pyReadLines ((m.to_string).data)
      = ("rows=".data ++ intRepr m.rows) :: ("cols=".data ++ intRepr m.cols)
        :: m.elements.map elementLine ∧
    ((m.to_string).data).getLast? ≠ some '\n' ∧
    ((m.set_element r c v).elements.map Prod.fst
      = if (r, c) ∈ m.elements.map Prod.fst then m.elements.map Prod.fst
        else m.elements.map Prod.fst ++ [(r, c)]) ∧
    dictGet ((m.set_element r c v).elements) (r, c) = some v := by
  refine ⟨by rw [pyReadLines_to_string]; rfl, ?_,
    keys_dictSet m.elements (r, c) v, dictGet_dictSet_self m.elements (r, c) v⟩
  intro hcon
  rw [to_string_data_eq,
    joinLines_getLast? (linesOf m) (linesOf_ne_nil m) (linesOf_nonempty_lines m)] at hcon
  have hsp := linesOf_ends_nonspace m _ (List.getLast_mem (linesOf_ne_nil m)) '\n' hcon
  exact absurd hsp (by decide)

/-- C8 counterexample: a `set_element` with a negative row index is
not rejected — there is no error path in `set_element` at all — and a
parsed element line with a negative coordinate is likewise accepted:
both store the element under the negative key and leave the
dimensions unchanged, refuting the claim that such inputs fail with
an `InvalidCoordinate` error. -/
theorem claim_c8_counterexample :
    ((SparseMatrix.new 2 2).set_element (-1) 0 5).elements = [((-1, 0), 5)] ∧
    ((SparseMatrix.new 2 2).set_element (-1) 0 5).get_element (-1) 0 = 5 ∧
    ((SparseMatrix.new 2 2).set_element (-1) 0 5).rows = 2 ∧
    ((SparseMatrix.new 2 2).set_element (-1) 0 5).cols = 2 ∧
    from_text "rows=2\ncols=2\n(-1, 0, 5)" = .ok ⟨2, 2, [((-1, 0), 5)]⟩ :=
  ⟨rfl, rfl, rfl, rfl, rfl⟩

/-- C8 as amended: on a matrix with non-negative dimensions, a
`set_element` at a negative row or column index is accepted without
any error: the value is stored (and read back by `get_element`), and
the negative axis does not grow the corresponding dimension. -/
theorem claim_c8 (m : SparseMatrix) (r c v : Int) (hr : 0 ≤ m.rows) (hc : 0 ≤ m.cols)
    (_hneg : r < 0 ∨ c < 0) :
    (m.set_element r c v).get_element r c = v ∧
    (r < 0 → (m.set_element r c v).rows = m.rows) ∧
    (c < 0 → (m.set_element r c v).cols = m.cols) := by
  refine ⟨get_set_self m r c v, fun h => ?_, fun h => ?_⟩
  · rw [rows_set, if_neg (by omega)]
  · rw [cols_set, if_neg (by omega)]

theorem claim_c8_witness :
    ((SparseMatrix.new 2 2).set_element (-1) 0 5).get_element (-1) 0 = 5 ∧
    ((-1 : Int) < 0 → ((SparseMatrix.new 2 2).set_element (-1) 0 5).rows
      = (SparseMatrix.new 2 2).rows) ∧
    ((0 : Int) < 0 → ((SparseMatrix.new 2 2).set_element (-1) 0 5).cols
      = (SparseMatrix.new 2 2).cols) :=
  claim_c8 (SparseMatrix.new 2 2) (-1) 0 5 (by decide) (by decide) (Or.inl (by decide))

theorem claim_c6_witness :
    (SparseMatrix.new 1 2).add (SparseMatrix.new 1 3)
      = .error (.valueError "Matrix dimensions do not match for addition.") ∧
    ∃ M, (SparseMatrix.new 1 2).multiply (SparseMatrix.new 2 3) = .ok M :=
  ⟨(claim_c6 (SparseMatrix.new 1 2) (SparseMatrix.new 1 3)).1.mp (by decide),
    (claim_c6 (SparseMatrix.new 1 2) (SparseMatrix.new 2 3)).2.2.2.2 rfl⟩

/-! ### Parsing the serialized text back -/

theorem parseHeaderVal_generic (name : List Char) (i : Int)
    (hws : ∀ ch ∈ name ++ '=' :: intRepr i, isPySpace ch = false)
    (hne : '=' ∉ name) :
    parseHeaderVal (name ++ '=' :: intRepr i) = .ok i := by
  rw [parseHeaderVal, stripWhile_all_neg hws, splitOnChar_append _ hne,
    splitOnChar_not_mem (fun hmem => intRepr_no_eq _ hmem rfl)]
  show pyInt (intRepr i) = .ok i
  exact pyInt_intRepr i

theorem parseHeaderVal_rows (i : Int) :
    parseHeaderVal ("rows=".data ++ intRepr i) = .ok i := by
  have hshape : "rows=".data ++ intRepr i = ['r', 'o', 'w', 's'] ++ '=' :: intRepr i := rfl
  rw [hshape]
  apply parseHeaderVal_generic
  · intro ch hch
    rcases List.mem_append.mp hch with h | h
    · simp only [List.mem_cons, List.not_mem_nil, or_false] at h
      rcases h with rfl | rfl | rfl | rfl <;> decide
    · rcases List.mem_cons.mp h with h | h
      · subst h; decide
      · exact intRepr_no_space ch h
  · decide

theorem parseHeaderVal_cols (i : Int) :
    parseHeaderVal ("cols=".data ++ intRepr i) = .ok i := by
  have hshape : "cols=".data ++ intRepr i = ['c', 'o', 'l', 's'] ++ '=' :: intRepr i := rfl
  rw [hshape]
  apply parseHeaderVal_generic
  · intro ch hch
    rcases List.mem_append.mp hch with h | h
    · simp only [List.mem_cons, List.not_mem_nil, or_false] at h
      rcases h with rfl | rfl | rfl | rfl <;> decide
    · rcases List.mem_cons.mp h with h | h
      · subst h; decide
      · exact intRepr_no_space ch h
  · decide

theorem parseTriple_elementLine (kv : (Int × Int) × Int) :
    parseTriple (elementLine kv) = .ok (kv.1.1, kv.1.2, kv.2) := by
  obtain ⟨cA, tA, hA⟩ := List.exists_cons_of_ne_nil (intRepr_ne_nil kv.1.1)
  have hcA : cA ∈ intRepr kv.1.1 := by rw [hA]; exact List.mem_cons_self _ _
  have hinner_ne : (intRepr kv.1.1 ++ ", ".data ++ intRepr kv.1.2 ++ ", ".data
      ++ intRepr kv.2) ≠ [] := by
    rw [hA]; simp
  obtain ⟨dV, hdV, hlastV⟩ := intRepr_getLast?_digit kv.2
  have hlast : (intRepr kv.1.1 ++ ", ".data ++ intRepr kv.1.2 ++ ", ".data
      ++ intRepr kv.2).getLast? = some (digitChar dV) := by
    rw [getLast?_append_right (intRepr_ne_nil kv.2), hlastV]
  have hlast2 : (intRepr kv.1.1 ++ ", ".data ++ intRepr kv.1.2 ++ ", ".data
      ++ intRepr kv.2).getLast hinner_ne = digitChar dV := by
    have h5 := List.getLast?_eq_getLast_of_ne_nil hinner_ne
    rw [hlast] at h5
    exact (Option.some.inj h5).symm
  have hstrip : stripWhile isParenChar (elementLine kv)
      = intRepr kv.1.1 ++ ", ".data ++ intRepr kv.1.2 ++ ", ".data ++ intRepr kv.2 := by
    rw [elementLine]
    refine strip_paren_wrap hinner_ne ?_ ?_
    · have h1 : (intRepr kv.1.1 ++ ", ".data ++ intRepr kv.1.2 ++ ", ".data
          ++ intRepr kv.2).head? = some cA := by rw [hA]; rfl
      rw [List.head?_eq_head hinner_ne] at h1
      rw [Option.some.inj h1]
      exact intRepr_no_paren _ hcA
    · rw [hlast2]
      exact digitChar_not_paren dV hdV
  have hc2 : ',' ∉ ' ' :: intRepr kv.1.2 := by
    intro hm
    rcases List.mem_cons.mp hm with h | h
    · exact absurd h (by decide)
    · exact intRepr_no_comma _ h rfl
  have hc3 : ',' ∉ ' ' :: intRepr kv.2 := by
    intro hm
    rcases List.mem_cons.mp hm with h | h
    · exact absurd h (by decide)
    · exact intRepr_no_comma _ h rfl
  have hshape : intRepr kv.1.1 ++ ", ".data ++ intRepr kv.1.2 ++ ", ".data ++ intRepr kv.2
      = intRepr kv.1.1 ++ ',' :: ((' ' :: intRepr kv.1.2) ++ ',' :: (' ' :: intRepr kv.2)) := by
    rw [show ", ".data = [',', ' '] from rfl]
    simp only [List.append_assoc, List.cons_append, List.nil_append, List.singleton_append]
  rw [parseTriple, hstrip, hshape,
    splitOnChar_append _ (fun hm => intRepr_no_comma _ hm rfl),
    splitOnChar_append _ hc2, splitOnChar_not_mem hc3]
  simp only [pyInt_intRepr, pyInt_space_intRepr]

theorem stripWhile_elementLine (kv : (Int × Int) × Int) :
    stripWhile isPySpace (elementLine kv) = elementLine kv := by
  refine stripWhile_eq_self (elementLine_ne_nil kv) ?_ ?_
  · show isPySpace '(' = false
    decide
  · have h := elementLine_getLast? kv
    rw [List.getLast?_eq_getLast_of_ne_nil (elementLine_ne_nil kv)] at h
    rw [Option.some.inj h]
    decide

theorem processLines_elementLines : ∀ (l : List ((Int × Int) × Int)) (m : SparseMatrix),
    processLines m (l.map elementLine) = .ok (copyInto m l) := by
  intro l
  induction l with
  | nil => intro m; rfl
  | cons kv rest ih =>
    intro m
    rw [List.map_cons, processLines, stripWhile_elementLine,
      if_neg (elementLine_ne_nil kv), parseTriple_elementLine]
    show processLines (m.set_element kv.1.1 kv.1.2 kv.2) (rest.map elementLine) = _
    rw [ih, copyInto_cons]

theorem copyInto_rebuild : ∀ (l : List ((Int × Int) × Int)) (m : SparseMatrix),
    (l.map Prod.fst).Nodup → (∀ k ∈ l.map Prod.fst, k ∉ m.elements.map Prod.fst) →
    (∀ kv ∈ l, kv.1.1 < m.rows ∧ kv.1.2 < m.cols) →
    copyInto m l = ⟨m.rows, m.cols, m.elements ++ l⟩ := by
  intro l
  induction l with
  | nil =>
    intro m _ _ _
    rw [copyInto_nil, List.append_nil]
  | cons kv rest ih =>
    intro m hnd hdisj hbound
    rw [List.map_cons] at hnd
    obtain ⟨h1, h2⟩ := List.nodup_cons.mp hnd
    have hkb := hbound kv (List.mem_cons_self _ _)
    have hm2 : m.set_element kv.1.1 kv.1.2 kv.2 = ⟨m.rows, m.cols, m.elements ++ [kv]⟩ := by
      rw [SparseMatrix.set_element]
      have he : dictSet m.elements (kv.1.1, kv.1.2) kv.2
          = m.elements ++ [((kv.1.1, kv.1.2), kv.2)] :=
        dictSet_of_not_mem _ _ _ (hdisj kv.1 (by simp))
      rw [if_neg (not_le.mpr hkb.1), if_neg (not_le.mpr hkb.2), he]
    rw [copyInto_cons, hm2, ih ⟨m.rows, m.cols, m.elements ++ [kv]⟩ h2 ?_ ?_]
    · rw [List.append_assoc]
      rfl
    · intro k hk
      rw [List.map_append]
      intro hin
      rcases List.mem_append.mp hin with hin | hin
      · exact hdisj k (List.mem_cons_of_mem _ hk) hin
      · simp only [List.map_cons, List.map_nil, List.mem_singleton] at hin
        subst hin
        exact h1 hk
    · intro kv2 hkv2
      exact hbound kv2 (List.mem_cons_of_mem _ hkv2)

theorem from_lines_linesOf (m : SparseMatrix) (hwf : m.wf) :
    from_lines (linesOf m) = .ok m := by
  rw [linesOf, from_lines, parseHeaderVal_rows, parseHeaderVal_cols]
  show processLines (SparseMatrix.new m.rows m.cols) (m.elements.map elementLine) = .ok m
  rw [processLines_elementLines]
  rw [copyInto_rebuild m.elements (SparseMatrix.new m.rows m.cols) hwf.1
    (by intro k _ hin; exact List.not_mem_nil k hin)
    (by intro kv hkv; exact ⟨(hwf.2 kv hkv).2.1, (hwf.2 kv hkv).2.2.2⟩)]
  show Except.ok ({ rows := m.rows, cols := m.cols, elements := [] ++ m.elements } : SparseMatrix)
    = Except.ok m
  rw [List.nil_append]

/-- C4: round-trip — parsing the serialized text of a well-formed
matrix reproduces a matrix with the same `rows`, the same `cols`, and
the same `get_element` value at every coordinate (in fact the very
same element store). -/
theorem claim_c4 (m : SparseMatrix) (hwf : m.wf) :
    ∃ m2, from_text m.to_string = .ok m2 ∧ m2.rows = m.rows ∧ m2.cols = m.cols ∧
      ∀ r c, m2.get_element r c = m.get_element r c := by
  refine ⟨m, ?_, rfl, rfl, fun r c => rfl⟩
  rw [from_text, pyReadLines_to_string, from_lines_linesOf m hwf]

theorem claim_c4_witness :
    (((SparseMatrix.new 2 3).set_element 0 2 (-5)).set_element 1 0 0).wf ∧
    ∃ m2, from_text (((SparseMatrix.new 2 3).set_element 0 2 (-5)).set_element 1 0 0).to_string
        = .ok m2 ∧
      m2.rows = (((SparseMatrix.new 2 3).set_element 0 2 (-5)).set_element 1 0 0).rows ∧
      m2.cols = (((SparseMatrix.new 2 3).set_element 0 2 (-5)).set_element 1 0 0).cols ∧
      ∀ r c, m2.get_element r c
        = (((SparseMatrix.new 2 3).set_element 0 2 (-5)).set_element 1 0 0).get_element r c :=
  ⟨by decide, claim_c4 (((SparseMatrix.new 2 3).set_element 0 2 (-5)).set_element 1 0 0)
    (by decide)⟩

/-! ### Header error behavior -/

theorem splitOnChar_mem_length {c : Char} {l : List Char} (h : c ∈ l) :
    2 ≤ (splitOnChar c l).length := by
  induction l with
  | nil => exact absurd h (List.not_mem_nil c)
  | cons x xs ih =>
    rw [splitOnChar]
    by_cases hx : x = c
    · rw [if_pos hx, List.length_cons]
      have h1 : 0 < (splitOnChar c xs).length :=
        List.length_pos.mpr (splitOnChar_ne_nil c xs)
      omega
    · rw [if_neg hx]
      have hmem : c ∈ xs := by
        rcases List.mem_cons.mp h with h1 | h1
        · exact absurd h1.symm hx
        · exact h1
      have h2 := ih hmem
      cases hs : splitOnChar c xs with
      | nil => exact absurd hs (splitOnChar_ne_nil c xs)
      | cons y ys =>
        rw [hs] at h2
        show 2 ≤ ((x :: y) :: ys).length
        rw [List.length_cons] at h2 ⊢
        omega

theorem pyInt_error {l : List Char} {e : PyErr} (h : pyInt l = .error e) :
    ∃ msg, e = .valueError msg := by
  rw [pyInt] at h
  cases hc : pyIntCore (stripWhile isPySpace l) with
  | some i => rw [hc] at h; exact Except.noConfusion h
  | none => rw [hc] at h; exact ⟨_, (Except.error.inj h).symm⟩

/-- C7 counterexample: a header line with a missing `=` raises the
generic `IndexError` of `split('=')[1]`, not a header-specific error,
and a line-1 failure is indistinguishable from a line-2 failure — the
two inputs below fail on different header lines yet produce the
identical exception, so no error "identifying which line failed"
exists; the too-few-lines case, by contrast, raises a `ValueError`. -/
theorem claim_c7_counterexample :
    from_text "rows5\ncols=2" = .error .indexError ∧
    from_text "rows=2\ncols5" = .error .indexError ∧
    from_text "x" = .error (.valueError "File does not contain enough lines for matrix dimensions.") :=
  ⟨rfl, rfl, rfl⟩

/-- C7 as amended: parsing with fewer than two lines fails with the
not-enough-lines `ValueError`; a header line whose stripped text has
no `=` makes parsing fail with `IndexError`; a failure of either
header line propagates unchanged (so nothing identifies which line
failed); and when `=` is present the only possible header failure is
the `ValueError` of `int(...)` on the segment after the first `=`. -/
theorem claim_c7 (lines : List (List Char)) (l0 l1 : List Char)
    (body : List (List Char)) :
    (lines.length < 2 → from_lines lines
      = .error (.valueError "File does not contain enough lines for matrix dimensions.")) ∧
    ('=' ∉ stripWhile isPySpace l0 →
      from_lines (l0 :: l1 :: body) = .error .indexError) ∧
    (∀ e, parseHeaderVal l0 = .error e → from_lines (l0 :: l1 :: body) = .error e) ∧
    (∀ r e, parseHeaderVal l0 = .ok r → parseHeaderVal l1 = .error e →
      from_lines (l0 :: l1 :: body) = .error e) ∧
    ('=' ∈ stripWhile isPySpace l0 → ∀ e, parseHeaderVal l0 = .error e →
      ∃ msg, e = .valueError msg) := by
  refine ⟨?_, ?_, ?_, ?_, ?_⟩
  · intro h
    match lines with
    | [] => rfl
    | [x] => rfl
    | x :: y :: rest =>
      rw [List.length_cons, List.length_cons] at h
      omega
  · intro h
    have hph : parseHeaderVal l0 = .error .indexError := by
      rw [parseHeaderVal, splitOnChar_not_mem h]
      rfl
    rw [from_lines, hph]
  · intro e h
    rw [from_lines, h]
  · intro r e h1 h2
    rw [from_lines, h1, h2]
  · intro hmem e herr
    have hlen := splitOnChar_mem_length hmem
    have hsome : (splitOnChar '=' (stripWhile isPySpace l0)).get? 1
        = some ((splitOnChar '=' (stripWhile isPySpace l0)).get ⟨1, by omega⟩) :=
      List.get?_eq_get (by omega)
    rw [parseHeaderVal, hsome] at herr
    exact pyInt_error herr

theorem claim_c7_witness :
    from_lines [['x']]
      = .error (.valueError "File does not contain enough lines for matrix dimensions.") ∧
    from_lines ["rows5".data, "cols=2".data] = .error .indexError ∧
    (∃ msg, PyErr.valueError ("invalid literal for int with base 10: " ++ String.mk "x".data)
      = .valueError msg) :=
  ⟨(claim_c7 [['x']] "rows5".data "cols=2".data []).1 (by decide),
    (claim_c7 [['x']] "rows5".data "cols=2".data []).2.1 (by decide),
    (claim_c7 [['x']] "rows=x".data "cols=2".data []).2.2.2.2 (by decide)
      (.valueError ("invalid literal for int with base 10: " ++ String.mk "x".data)) rfl⟩
